import Mathlib

/-!
Verification of the `dependency-injector` crate's core: hierarchical
service containers (`src/container.rs`), concurrent storage and frozen
perfect-hash storage (`src/storage.rs`), and lifecycle factories
(`src/factory.rs`).

The embedding is a shallow, single-threaded state-passing model:

* `Key` stands for the per-type `TypeId` (and its transmuted u64 hash:
  the code assumes distinct types have distinct u64 hashes, so we key the
  cache by the `Key` itself).
* `Handle` stands for an `Arc` pointing at a service instance; `Handle.id`
  is the allocation identity of the `Arc` (two handles are "the same
  instance" iff their ids agree).  `World.nextId` is the allocator.
* `Factory` mirrors `AnyFactory` (`Singleton` / `Lazy` / `Transient`);
  the lazy variant carries its `OnceCell` contents plus a ghost counter
  of init-function evaluations (the cell itself has no counter; the
  counter only instruments the specification).
* `Storage` mirrors `ServiceStorage`: a type-keyed map (association list
  with overwrite-on-insert, as `DashMap::insert`) plus an optional parent
  pointer.  Storages live in `World.storages`; the list index plays the
  role of `Arc::as_ptr` identity used as the hot-cache key.
* `World.cache` is the `thread_local!` 4-slot direct-mapped `HotCache`;
  `slotForHash` reproduces the 64-bit mixing arithmetic exactly.
* Parent-chain walks in the source are `while let` loops over `Arc`
  parents, which always terminate because parents are created strictly
  before children; the model makes the same fact explicit with a fuel
  argument (`p + 1` steps suffice whenever parent indices decrease,
  cf. `wellParentedB`).
-/

namespace DI

/-- Per-type service key (stands for `TypeId` and its u64 hash). -/
abbrev Key := Nat

/-- Payload carried by a service instance. -/
abbrev Val := Nat

/-- A reference-counted handle to a service instance.  `id` is the
allocation identity of the underlying `Arc` (fresh per `Arc::new`). -/
structure Handle where
  id : Nat
  val : Val
  deriving DecidableEq, Repr

/-- `AnyFactory` from `src/factory.rs`: the three lifecycle variants.
`lazy` stores the init function, the `OnceCell` contents, and a ghost
count of init evaluations used only by the specification. -/
inductive Factory where
  | singleton (h : Handle)
  | lazy (init : Nat → Val) (cell : Option Handle) (evals : Nat)
  | transient (create : Nat → Val)

/-- `AnyFactory::is_transient`. -/
def Factory.isTransient : Factory → Bool
  | .transient _ => true
  | _ => false

/-- Ghost: number of times a lazy entry's init function has run. -/
def Factory.lazyEvals : Factory → Nat
  | .lazy _ _ n => n
  | _ => 0

/-- `AnyFactory::resolve`, given the next fresh allocation id.  Returns
the produced handle, the updated factory if its state changed (the lazy
`OnceCell` being set), and whether a fresh `Arc` was allocated. -/
def Factory.resolve : Factory → Nat → Handle × Option Factory × Bool
  | .singleton h, _ => (h, none, false)
  | .lazy _ (some h) _, _ => (h, none, false)
  | .lazy init none n, fresh => (⟨fresh, init fresh⟩, some (.lazy init (some ⟨fresh, init fresh⟩) (n + 1)), true)
  | .transient create, fresh => (⟨fresh, create fresh⟩, none, true)

/-- Association-list lookup (the `DashMap` keyed by `TypeId`). -/
def lookupKey : List (Key × Factory) → Key → Option Factory
  | [], _ => none
  | (k', f) :: rest, k => if k' = k then some f else lookupKey rest k

/-- Association-list insert with overwrite (`DashMap::insert`). -/
def insertKey : List (Key × Factory) → Key → Factory → List (Key × Factory)
  | [], k, f => [(k, f)]
  | (k', f') :: rest, k, f =>
      if k' = k then (k, f) :: rest else (k', f') :: insertKey rest k f

/-- `ServiceStorage`: local factories plus an optional parent pointer. -/
structure Storage where
  factories : List (Key × Factory)
  parent : Option Nat

/-- Local `ServiceStorage::contains` on the storage at index `p`. -/
def storageContains (ss : List Storage) (p : Nat) (k : Key) : Bool :=
  match ss[p]? with
  | some s => (lookupKey s.factories k).isSome
  | none => false

/-- Parent pointer of the storage at index `p`. -/
def parentOfS (ss : List Storage) (p : Nat) : Option Nat :=
  match ss[p]? with
  | some s => s.parent
  | none => none

/-- `ServiceStorage::contains_in_chain`: self, then the parent chain.
Fueled; `p + 1` steps suffice when parent indices decrease. -/
def containsChainFuel (ss : List Storage) (k : Key) : Nat → Nat → Bool
  | 0, _ => false
  | fuel + 1, p =>
    if storageContains ss p k then true
    else
      match parentOfS ss p with
      | some q => containsChainFuel ss k fuel q
      | none => false

/-- Parent links always point to strictly smaller indices: true of every
world built by the API, since `scope()` appends the child storage after
its parent already exists. -/
def wellParentedB (ss : List Storage) : Bool :=
  (List.range ss.length).all fun p =>
    match ss[p]? with
    | some s =>
      match s.parent with
      | some q => decide (q < p)
      | none => true
    | none => true

/-- One slot of the thread-local `HotCache`: pre-computed type hash,
owning storage pointer, and the cached handle. -/
structure CacheEntry where
  typeHash : Nat
  storagePtr : Nat
  service : Handle
  deriving DecidableEq, Repr

/-- Number of hot-cache slots (`HOT_CACHE_SLOTS`). -/
def HOT_CACHE_SLOTS : Nat := 4

/-- 2^64, the modulus of all u64 arithmetic below. -/
def U64MOD : Nat := 2 ^ 64

/-- `u64::rotate_left(x, 32)`. -/
def rotl32of64 (x : Nat) : Nat :=
  let y := x % U64MOD
  ((y <<< 32) % U64MOD) ||| (y >>> 32)

/-- `HotCache::slot_for_hash`: XOR with the rotated storage pointer,
golden-ratio multiply, reduce modulo the slot count. -/
def slotForHash (typeHash storagePtr : Nat) : Nat :=
  let mixed := (typeHash % U64MOD) ^^^ rotl32of64 storagePtr
  ((mixed * 0x9e3779b97f4a7c15) % U64MOD) % HOT_CACHE_SLOTS

/-- `DiError` (src/error.rs), restricted to the variant the resolution
path produces. -/
inductive DiError where
  | notFound (k : Key)
  deriving DecidableEq, Repr

/-- The whole mutable state one thread can see: all storages (indexed by
their `Arc` pointer identity), all lock flags, the thread-local hot
cache, and the fresh-allocation counter. -/
structure World where
  storages : List Storage
  locks : List Bool
  cache : List (Option CacheEntry)
  nextId : Nat

/-- The empty initial state (no containers, empty 4-slot cache). -/
def World.init : World := ⟨[], [], List.replicate HOT_CACHE_SLOTS none, 0⟩

/-- `HotCache::get` for key `k` and storage pointer `ptr`. -/
def World.cacheGet (w : World) (k ptr : Nat) : Option Handle :=
  match w.cache[slotForHash k ptr]? with
  | some (some e) =>
      if e.typeHash = k ∧ e.storagePtr = ptr then some e.service else none
  | _ => none

/-- `HotCache::insert`: unconditionally overwrite the computed slot. -/
def World.cacheInsert (w : World) (k ptr : Nat) (h : Handle) : World :=
  { w with cache := w.cache.set (slotForHash k ptr) (some ⟨k, ptr, h⟩) }

/-- `HotCache::clear` (`Container::clear_cache`). -/
def World.cacheClear (w : World) : World :=
  { w with cache := List.replicate HOT_CACHE_SLOTS none }

/-- `ServiceStorage::resolve` on storage `p` plus the write-back of any
factory state change (the lazy cell being set mutates shared state). -/
def World.storageResolve (w : World) (p : Nat) (k : Key) : Option Handle × World :=
  match w.storages[p]? with
  | none => (none, w)
  | some s =>
    match lookupKey s.factories k with
    | none => (none, w)
    | some f =>
      let r := f.resolve w.nextId
      let ss :=
        match r.2.1 with
        | some f' => w.storages.set p { s with factories := insertKey s.factories k f' }
        | none => w.storages
      (some r.1, { w with storages := ss, nextId := if r.2.2 then w.nextId + 1 else w.nextId })

/-- `ServiceStorage::is_transient` on storage `p`. -/
def World.storageIsTransient (w : World) (p : Nat) (k : Key) : Bool :=
  match w.storages[p]? with
  | some s =>
    match lookupKey s.factories k with
    | some f => f.isTransient
    | none => false
  | none => false

/-- `ServiceStorage::get_with_transient_flag`: resolve and report the
transient flag in one lookup. -/
def World.getWithTransientFlag (w : World) (p : Nat) (k : Key) :
    Option (Handle × Bool) × World :=
  match w.storages[p]? with
  | none => (none, w)
  | some s =>
    match lookupKey s.factories k with
    | none => (none, w)
    | some f =>
      let r := f.resolve w.nextId
      let ss :=
        match r.2.1 with
        | some f' => w.storages.set p { s with factories := insertKey s.factories k f' }
        | none => w.storages
      (some (r.1, f.isTransient),
       { w with storages := ss, nextId := if r.2.2 then w.nextId + 1 else w.nextId })

/-- `Container`: a handle over one storage, its shared lock flag, and a
depth counter.  `parentStorage` mirrors the redundant fast-access field
(`Container::parent_storage`, unused on the resolution path). -/
structure Container where
  storage : Nat
  parentStorage : Option Nat
  lockRef : Nat
  depth : Nat
  deriving DecidableEq, Repr

/-- `Container::resolve_from_parents`: walk the ancestor chain from the
first parent; on a hit, cache under the original caller's storage
pointer unless the entry is transient.  Fueled stand-in for the source's
`while let` loop (which terminates because parents precede children). -/
def resolveParentsFuel (callerPtr : Nat) (k : Key) :
    Nat → World → Option Nat → Except DiError Handle × World
  | _, w, none => (.error (.notFound k), w)
  | 0, w, some _ => (.error (.notFound k), w)
  | fuel + 1, w, some p =>
    match w.storageResolve p k with
    | (some h, w1) =>
      let w2 := if w1.storageIsTransient p k then w1 else w1.cacheInsert k callerPtr h
      (.ok h, w2)
    | (none, w1) => resolveParentsFuel callerPtr k fuel w1 (parentOfS w1.storages p)

/-- `Container::get`: hot cache, then local storage (caching the hit
unless transient), then the root fast path, then the parent chain. -/
def World.getC (w : World) (c : Container) (k : Key) : Except DiError Handle × World :=
  match w.cacheGet k c.storage with
  | some h => (.ok h, w)
  | none =>
    match w.getWithTransientFlag c.storage k with
    | (some (h, isT), w1) =>
      let w2 := if isT then w1 else w1.cacheInsert k c.storage h
      (.ok h, w2)
    | (none, w1) =>
      if c.depth = 0 then (.error (.notFound k), w1)
      else resolveParentsFuel c.storage k c.storage w1 (parentOfS w1.storages c.storage)

/-- `Container::contains` via `ServiceStorage::contains_in_chain`. -/
def World.containsC (w : World) (c : Container) (k : Key) : Bool :=
  containsChainFuel w.storages k (c.storage + 1) c.storage

/-- `Container::is_locked` / the flag read by `check_not_locked`. -/
def World.lockOf (w : World) (c : Container) : Bool :=
  w.locks.getD c.lockRef false

/-- `ServiceStorage::insert` targeted at storage `p`. -/
def World.insertFactory (w : World) (p : Nat) (k : Key) (f : Factory) : World :=
  match w.storages[p]? with
  | some s => { w with storages := w.storages.set p { s with factories := insertKey s.factories k f } }
  | none => w

/-- `Container::singleton`.  `none` models the `check_not_locked` panic;
registration allocates the instance's `Arc` eagerly. -/
def World.singletonC (w : World) (c : Container) (k : Key) (v : Val) : Option World :=
  if w.lockOf c then none
  else
    let w1 := w.insertFactory c.storage k (.singleton ⟨w.nextId, v⟩)
    some { w1 with nextId := w1.nextId + 1 }

/-- `Container::lazy`.  `none` models the `check_not_locked` panic. -/
def World.lazyC (w : World) (c : Container) (k : Key) (init : Nat → Val) : Option World :=
  if w.lockOf c then none
  else some (w.insertFactory c.storage k (.lazy init none 0))

/-- `Container::transient`.  `none` models the `check_not_locked` panic. -/
def World.transientC (w : World) (c : Container) (k : Key) (create : Nat → Val) : Option World :=
  if w.lockOf c then none
  else some (w.insertFactory c.storage k (.transient create))

/-- `Container::register_by_id` (pre-erased `Arc` supplied by caller). -/
def World.registerByIdC (w : World) (c : Container) (k : Key) (h : Handle) : Option World :=
  if w.lockOf c then none
  else some (w.insertFactory c.storage k (.singleton h))

/-- `Container::lock`: store `true` into the shared flag. -/
def World.lockC (w : World) (c : Container) : World :=
  { w with locks := w.locks.set c.lockRef true }

/-- `Container::clear`: empty the local storage, keep the parent link. -/
def World.clearC (w : World) (c : Container) : World :=
  match w.storages[c.storage]? with
  | some s => { w with storages := w.storages.set c.storage { s with factories := [] } }
  | none => w

/-- `Container::len` (local entry count). -/
def World.lenC (w : World) (c : Container) : Nat :=
  match w.storages[c.storage]? with
  | some s => s.factories.length
  | none => 0

/-- `Container::new`: fresh root storage, fresh unlocked flag, depth 0. -/
def World.newC (w : World) : Container × World :=
  (⟨w.storages.length, none, w.locks.length, 0⟩,
   { w with storages := w.storages ++ [⟨[], none⟩], locks := w.locks ++ [false] })

/-- `Container::scope`: fresh child storage parented to the caller's,
fresh unlocked flag, depth + 1. -/
def World.scopeC (w : World) (c : Container) : Container × World :=
  (⟨w.storages.length, some c.storage, w.locks.length, c.depth + 1⟩,
   { w with storages := w.storages ++ [⟨[], some c.storage⟩], locks := w.locks ++ [false] })

/-- `ScopePool`: the parent storage scopes inherit from, the free list of
pre-built (storage, lock-flag) slots, and the parent depth. -/
structure ScopePool where
  parentStorage : Nat
  available : List (Nat × Nat)
  parentDepth : Nat

/-- Pre-allocation loop of `ScopePool::new` (push `capacity` slots). -/
def allocSlots (parentPtr : Nat) : Nat → World → List (Nat × Nat) × World
  | 0, w => ([], w)
  | n + 1, w =>
    let slot := (w.storages.length, w.locks.length)
    let w1 : World := { w with storages := w.storages ++ [⟨[], some parentPtr⟩], locks := w.locks ++ [false] }
    let r := allocSlots parentPtr n w1
    (slot :: r.1, r.2)

/-- `ScopePool::new`. -/
def World.poolNew (w : World) (parent : Container) (capacity : Nat) : ScopePool × World :=
  let r := allocSlots parent.storage capacity w
  (⟨parent.storage, r.1, parent.depth⟩, r.2)

/-- `ScopePool::acquire`: pop the most recently pushed slot (`Vec::pop`),
or build a fresh one when the pool is empty. -/
def World.poolAcquire (w : World) (pool : ScopePool) : Container × ScopePool × World :=
  match pool.available.getLast? with
  | some slot =>
    (⟨slot.1, some pool.parentStorage, slot.2, pool.parentDepth + 1⟩,
     { pool with available := pool.available.dropLast }, w)
  | none =>
    (⟨w.storages.length, some pool.parentStorage, w.locks.length, pool.parentDepth + 1⟩,
     pool,
     { w with storages := w.storages ++ [⟨[], some pool.parentStorage⟩], locks := w.locks ++ [false] })

/-- `ScopePool::release`: clear the storage, reset the lock flag, push
the slot back.  The thread-local hot cache is not touched. -/
def World.poolRelease (w : World) (pool : ScopePool) (c : Container) : ScopePool × World :=
  let w1 := w.clearC c
  ({ pool with available := pool.available ++ [(c.storage, c.lockRef)] },
   { w1 with locks := w1.locks.set c.lockRef false })

/-- The public `Container` API, as operations on a world (used to state
that no API call resets a lock flag).  Panicking registrations leave the
world unchanged. -/
inductive ContOp where
  | newOp
  | scopeOp (c : Container)
  | singletonOp (c : Container) (k : Key) (v : Val)
  | lazyOp (c : Container) (k : Key) (init : Nat → Val)
  | transientOp (c : Container) (k : Key) (create : Nat → Val)
  | registerByIdOp (c : Container) (k : Key) (h : Handle)
  | getOp (c : Container) (k : Key)
  | containsOp (c : Container) (k : Key)
  | lockOp (c : Container)
  | clearOp (c : Container)
  | clearCacheOp
  | lenOp (c : Container)
  | warmCacheOp (c : Container) (k : Key)

/-- State effect of each `Container` API operation. -/
def applyOp (w : World) : ContOp → World
  | .newOp => (w.newC).2
  | .scopeOp c => (w.scopeC c).2
  | .singletonOp c k v => (w.singletonC c k v).getD w
  | .lazyOp c k init => (w.lazyC c k init).getD w
  | .transientOp c k create => (w.transientC c k create).getD w
  | .registerByIdOp c k h => (w.registerByIdC c k h).getD w
  | .getOp c k => (w.getC c k).2
  | .containsOp _ _ => w
  | .lockOp c => w.lockC c
  | .clearOp c => w.clearC c
  | .clearCacheOp => w.cacheClear
  | .lenOp _ => w
  | .warmCacheOp c k => (w.getC c k).2

/-- Repeated `resolve()` calls on one factory entry (used to state the
lazy exactly-once property at the `LazyFactory` level).  Threads the
fresh-allocation supply exactly as `World.storageResolve` does. -/
def resolveSeq : Factory → Nat → Nat → List Handle × Factory × Nat
  | f, fresh, 0 => ([], f, fresh)
  | f, fresh, n + 1 =>
    let r := f.resolve fresh
    let rest := resolveSeq (r.2.1.getD f) (if r.2.2 then fresh + 1 else fresh) n
    (r.1 :: rest.1, rest.2)

/-- Results of `n` successive `Container::get` calls on the same handle. -/
def getResults (w : World) (c : Container) (k : Key) : Nat → List (Except DiError Handle)
  | 0 => []
  | n + 1 =>
    let r := w.getC c k
    r.1 :: getResults r.2 c k n

/-- Every storage that holds `k` at all holds it as a transient entry. -/
def transientOnlyB (w : World) (k : Key) : Bool :=
  w.storages.all fun s =>
    match lookupKey s.factories k with
    | some f => f.isTransient
    | none => true

/-- The thread-local hot cache holds no entry whose type hash is `k`. -/
def cacheLacksB (w : World) (k : Key) : Bool :=
  w.cache.all fun e =>
    match e with
    | some ce => decide (ce.typeHash ≠ k)
    | none => true

/-- `FrozenStorage` (the `perfect-hash` feature): the minimal perfect
hash function and the entries laid out in hash order.  The source keeps
two arrays (`factories` and `type_ids`) filled at the same perfect-hash
index by the same loop and flattened together; the model keeps each
(key, factory) pair in one table, which is the same data.  The
recursively frozen parent is not modelled: the claims concern the local
`resolve`/`contains` of one frozen level. -/
structure FrozenStorage where
  mphf : Key → Option Nat
  table : List (Key × Factory)

/-- The placement loop of `FrozenStorage::from_storage`: write each entry
into the slot its key hashes to. -/
def fillSlots (mphf : Key → Option Nat) :
    List (Key × Factory) → List (Option (Key × Factory)) → List (Option (Key × Factory))
  | [], acc => acc
  | e :: rest, acc =>
    fillSlots mphf rest
      (match mphf e.1 with
       | some i => acc.set i (some e)
       | none => acc)

/-- `FrozenStorage::from_storage` on a snapshot of the entries: place all
entries by perfect hash into `n` slots, then flatten. -/
def FrozenStorage.fromEntries (mphf : Key → Option Nat)
    (entries : List (Key × Factory)) : FrozenStorage :=
  ⟨mphf, (fillSlots mphf entries (List.replicate entries.length none)).filterMap id⟩

/-- The lookup path of `FrozenStorage::resolve`: hash, bounds-check the
index, verify the stored key equals the requested key, return the entry. -/
def FrozenStorage.findEntry (fz : FrozenStorage) (k : Key) : Option Factory :=
  match fz.mphf k with
  | none => none
  | some idx =>
    match fz.table[idx]? with
    | none => none
    | some e => if e.1 = k then some e.2 else none

/-- `FrozenStorage::resolve` (the factory invocation after lookup). -/
def FrozenStorage.resolveFz (fz : FrozenStorage) (k : Key) (fresh : Nat) : Option Handle :=
  (fz.findEntry k).map fun f => (f.resolve fresh).1

/-- `FrozenStorage::contains`: hash, bounds-check, verify key equality. -/
def FrozenStorage.containsF (fz : FrozenStorage) (k : Key) : Bool :=
  match fz.mphf k with
  | none => false
  | some idx =>
    match fz.table[idx]? with
    | none => false
    | some e => e.1 == k

/-- The minimal-perfect-hash contract `boomphf::Mphf` guarantees for the
hashed key set: every key hashes below `n`, distinct keys hash apart,
and every index below `n` is hit.  Nothing is assumed for keys outside
the set: `try_hash` may return an arbitrary (even in-range) index. -/
def isMphfB (mphf : Key → Option Nat) (keys : List Key) : Bool :=
  (keys.all fun k =>
    match mphf k with
    | some i => decide (i < keys.length)
    | none => false)
  && ((List.range keys.length).all fun i => keys.any fun k => decide (mphf k = some i))
  && (keys.all fun k1 => keys.all fun k2 => decide (mphf k1 = mphf k2 → k1 = k2))

/-! ### Concrete executions used by counterexamples and witnesses -/

namespace ScenarioOverride

/-- Root container of the override scenario. -/
def rootC : Container := (World.init.newC).1

/-- World after creating the root. -/
def w1 : World := (World.init.newC).2

/-- Root registers key 0 with value 10 (handle id 0). -/
def w2 : World := (w1.singletonC rootC 0 10).getD w1

/-- Child scope of the root. -/
def childC : Container := (w2.scopeC rootC).1

/-- World after creating the child. -/
def w3 : World := (w2.scopeC rootC).2

/-- The child resolves key 0 (ancestor hit, cached under the child). -/
def w4 : World := (w3.getC childC 0).2

/-- The child then registers its own value 20 for key 0 (handle id 1). -/
def w5 : World := (w4.singletonC childC 0 20).getD w4

end ScenarioOverride

namespace ScenarioShadow

/-- Root container of the clean shadowing scenario (no intervening get). -/
def rootC : Container := (World.init.newC).1

/-- World after creating the root. -/
def wA : World := (World.init.newC).2

/-- Child scope of the root. -/
def childC : Container := (wA.scopeC rootC).1

/-- World after creating the child. -/
def wB : World := (wA.scopeC rootC).2

/-- Root registers key 0 with value 10 (handle id 0). -/
def wC : World := (wB.singletonC rootC 0 10).getD wB

/-- Child registers key 0 with value 20 (handle id 1); no get happened
in between, so the hot cache is clean. -/
def wD : World := (wC.singletonC childC 0 20).getD wC

end ScenarioShadow

namespace ScenarioClear

/-- Root container of the clear scenario. -/
def rootC : Container := (World.init.newC).1

/-- World after creating the root. -/
def u1 : World := (World.init.newC).2

/-- Root registers key 7 with value 42 (handle id 0). -/
def u2 : World := (u1.singletonC rootC 7 42).getD u1

/-- Root resolves key 7, populating the thread-local hot cache. -/
def u3 : World := (u2.getC rootC 7).2

/-- Root is cleared; the hot cache is not touched. -/
def u4 : World := u3.clearC rootC

end ScenarioClear

namespace ScenarioClearSplit

/-- Root container (will keep key 3 for the ancestor part). -/
def rootC : Container := (World.init.newC).1

/-- World after creating the root. -/
def v1 : World := (World.init.newC).2

/-- Child scope of the root. -/
def childC : Container := (v1.scopeC rootC).1

/-- World after creating the child. -/
def v2 : World := (v1.scopeC rootC).2

/-- Root registers key 3 with value 30. -/
def v3 : World := (v2.singletonC rootC 3 30).getD v2

/-- Child registers key 7 with value 70 (only in the child). -/
def v4 : World := (v3.singletonC childC 7 70).getD v3

end ScenarioClearSplit

namespace ScenarioPool

/-- Root container the pool inherits from. -/
def rootC : Container := (World.init.newC).1

/-- World after creating the root. -/
def p1 : World := (World.init.newC).2

/-- Pool with one pre-allocated slot. -/
def pool0 : ScopePool := (p1.poolNew rootC 1).1

/-- World after building the pool. -/
def p2 : World := (p1.poolNew rootC 1).2

/-- First acquired scope. -/
def sc1 : Container := (p2.poolAcquire pool0).1

/-- Pool after the first acquire. -/
def pool1 : ScopePool := (p2.poolAcquire pool0).2.1

/-- World after the first acquire. -/
def p3 : World := (p2.poolAcquire pool0).2.2

/-- The scope registers key 5 with value 77 (handle id 0). -/
def p4 : World := (p3.singletonC sc1 5 77).getD p3

/-- The scope resolves key 5 (cached in the thread-local hot cache). -/
def p5 : World := (p4.getC sc1 5).2

/-- The scope is released: storage cleared, lock reset, slot pushed. -/
def rel : ScopePool × World := p5.poolRelease pool1 sc1

/-- Second acquire: pops the very slot that was just released. -/
def sc2 : Container := (rel.2.poolAcquire rel.1).1

/-- World after the second acquire. -/
def p6 : World := (rel.2.poolAcquire rel.1).2.2

end ScenarioPool

namespace ScenarioPoolClean

/-- Root container the pool inherits from. -/
def rootC : Container := (World.init.newC).1

/-- World after creating the root. -/
def q1 : World := (World.init.newC).2

/-- Pool with one pre-allocated slot. -/
def pool0 : ScopePool := (q1.poolNew rootC 1).1

/-- World after building the pool. -/
def q2 : World := (q1.poolNew rootC 1).2

/-- First acquired scope. -/
def sc1 : Container := (q2.poolAcquire pool0).1

/-- Pool after the first acquire. -/
def pool1 : ScopePool := (q2.poolAcquire pool0).2.1

/-- World after the first acquire. -/
def q3 : World := (q2.poolAcquire pool0).2.2

/-- The scope registers key 5 with value 77 but never resolves it, so
the hot cache stays clean. -/
def q4 : World := (q3.singletonC sc1 5 77).getD q3

end ScenarioPoolClean

namespace ScenarioDeep

/-- Root of a three-level chain. -/
def rootC : Container := (World.init.newC).1

/-- World after creating the root. -/
def d1 : World := (World.init.newC).2

/-- Root registers key 9 with value 33. -/
def d2 : World := (d1.singletonC rootC 9 33).getD d1

/-- First-level scope. -/
def s1 : Container := (d2.scopeC rootC).1

/-- World after the first scope. -/
def d3 : World := (d2.scopeC rootC).2

/-- Second-level scope (a child of it sits three levels below root). -/
def s2 : Container := (d3.scopeC s1).1

/-- World after the second scope. -/
def d4 : World := (d3.scopeC s1).2

end ScenarioDeep

namespace ScenarioTransient

/-- Root container with a transient registration. -/
def rootC : Container := (World.init.newC).1

/-- World after creating the root. -/
def t1 : World := (World.init.newC).2

/-- Root registers key 4 as a transient producing `id + 100`. -/
def t2 : World := (t1.transientC rootC 4 (fun n => n + 100)).getD t1

end ScenarioTransient

namespace ScenarioSingleton

/-- Root container for the eager-singleton identity claim. -/
def rootC : Container := (World.init.newC).1

/-- World after creating the root. -/
def g1 : World := (World.init.newC).2

/-- Root registers key 2 with value 55 (handle id 0). -/
def g2 : World := (g1.singletonC rootC 2 55).getD g1

end ScenarioSingleton

namespace ScenarioFrozen

/-- A concrete perfect hash for the key set {3, 10}; every unknown key
is sent to the plausible in-range slot 0. -/
def mphfW : Key → Option Nat := fun k => if k = 10 then some 1 else some 0

/-- Snapshot entries: two singleton services. -/
def entriesW : List (Key × Factory) := [(3, .singleton ⟨0, 11⟩), (10, .singleton ⟨1, 22⟩)]

end ScenarioFrozen

/-! ### Facts about the key-indexed factory map -/

theorem lookupKey_insertKey_self (l : List (Key × Factory)) (k : Key) (f : Factory) :
    lookupKey (insertKey l k f) k = some f := by
  induction l with
  | nil => simp [insertKey, lookupKey]
  | cons hd tl ih =>
    obtain ⟨k', f'⟩ := hd
    by_cases h : k' = k
    · subst h; simp [insertKey, lookupKey]
    · simp [insertKey, h, lookupKey, ih]

theorem lookupKey_insertKey_ne (l : List (Key × Factory)) {k k' : Key} (f : Factory)
    (h : k' ≠ k) : lookupKey (insertKey l k f) k' = lookupKey l k' := by
  induction l with
  | nil => simp [insertKey, lookupKey, Ne.symm h]
  | cons hd tl ih =>
    obtain ⟨k₂, f₂⟩ := hd
    by_cases h2 : k₂ = k
    · subst h2; simp [insertKey, lookupKey, Ne.symm h]
    · by_cases h3 : k₂ = k'
      · subst h3; simp [insertKey, h2, lookupKey]
      · simp [insertKey, h2, lookupKey, h3, ih]

theorem lookupKey_eq_none {l : List (Key × Factory)} {k : Key}
    (h : k ∉ l.map Prod.fst) : lookupKey l k = none := by
  induction l with
  | nil => rfl
  | cons hd tl ih =>
    obtain ⟨k', f'⟩ := hd
    simp only [List.map_cons, List.mem_cons] at h
    push_neg at h
    simp [lookupKey, Ne.symm h.1, ih h.2]

theorem mem_keys_of_lookupKey {l : List (Key × Factory)} {k : Key} {f : Factory}
    (h : lookupKey l k = some f) : k ∈ l.map Prod.fst := by
  by_contra hh
  rw [lookupKey_eq_none hh] at h
  cases h

theorem lookupKey_of_mem {l : List (Key × Factory)} {k : Key} {f : Factory}
    (hnd : (l.map Prod.fst).Nodup) (hm : (k, f) ∈ l) : lookupKey l k = some f := by
  induction l with
  | nil => cases hm
  | cons hd tl ih =>
    obtain ⟨k', f'⟩ := hd
    simp only [List.map_cons, List.nodup_cons] at hnd
    rcases List.mem_cons.mp hm with heq | hmem
    · cases heq; simp [lookupKey]
    · have hne : k' ≠ k := by
        intro hkk
        subst hkk
        exact hnd.1 (List.mem_map.mpr ⟨(k', f), hmem, rfl⟩)
      simp [lookupKey, hne, ih hnd.2 hmem]

/-! ### Well-parentedness and the chain walks -/

/-- Propositional form of `wellParentedB`. -/
def WellParented (ss : List Storage) : Prop :=
  ∀ p q, parentOfS ss p = some q → q < p

theorem wellParented_of_B {ss : List Storage} (h : wellParentedB ss = true) :
    WellParented ss := by
  intro p q hpq
  cases hsp : ss[p]? with
  | none => simp [parentOfS, hsp] at hpq
  | some s =>
    simp only [parentOfS, hsp] at hpq
    have hp : p < ss.length := by
      by_contra hh
      rw [List.getElem?_eq_none (by omega)] at hsp
      cases hsp
    rw [wellParentedB, List.all_eq_true] at h
    have h2 := h p (List.mem_range.mpr hp)
    simp only [hsp, hpq] at h2
    exact of_decide_eq_true h2

theorem wellParented_append {ss : List Storage} (hwp : WellParented ss) {s : Storage}
    (hs : ∀ q, s.parent = some q → q < ss.length) : WellParented (ss ++ [s]) := by
  intro p q hpq
  rcases lt_trichotomy p ss.length with hp | hp | hp
  · apply hwp p q
    simpa [parentOfS, List.getElem?_append, hp] using hpq
  · subst hp
    simp only [parentOfS, List.getElem?_concat_length] at hpq
    exact hs q hpq
  · have : (ss ++ [s])[p]? = none := by
      apply List.getElem?_eq_none
      simp only [List.length_append, List.length_cons, List.length_nil]
      omega
    simp [parentOfS, this] at hpq

theorem wellParented_set {ss : List Storage} (hwp : WellParented ss) {j : Nat}
    {s s' : Storage} (hj : ss[j]? = some s) (hps : s'.parent = s.parent) :
    WellParented (ss.set j s') := by
  intro p q hpq
  by_cases hpj : p = j
  · subst hpj
    obtain ⟨hlt, _⟩ := List.getElem?_eq_some.mp hj
    simp only [parentOfS, List.getElem?_set_self hlt] at hpq
    apply hwp p q
    rw [hps] at hpq
    simp [parentOfS, hj, hpq]
  · apply hwp p q
    rwa [parentOfS, List.getElem?_set_ne (fun hh => hpj hh.symm)] at hpq

theorem containsChainFuel_congr_fuel {ss : List Storage} (hwp : WellParented ss) (k : Key) :
    ∀ p fuel, p + 1 ≤ fuel →
      containsChainFuel ss k fuel p = containsChainFuel ss k (p + 1) p := by
  intro p
  induction p using Nat.strong_induction_on with
  | _ p ih =>
    intro fuel hf
    obtain ⟨f, rfl⟩ : ∃ f, fuel = f + 1 := ⟨fuel - 1, by omega⟩
    by_cases hc : storageContains ss p k
    · simp [containsChainFuel, hc]
    · simp only [containsChainFuel, hc, Bool.false_eq_true, if_false]
      cases hq : parentOfS ss p with
      | none => rfl
      | some q =>
        have hqp := hwp p q hq
        exact (ih q hqp f (by omega)).trans (ih q hqp p (by omega)).symm

theorem containsChainFuel_append {ss : List Storage} (s : Storage)
    (hwp : WellParented ss) (k : Key) :
    ∀ fuel p, p < ss.length →
      containsChainFuel (ss ++ [s]) k fuel p = containsChainFuel ss k fuel p := by
  intro fuel
  induction fuel with
  | zero => intro p _; rfl
  | succ f ih =>
    intro p hp
    have hsp : (ss ++ [s])[p]? = ss[p]? := by
      rw [List.getElem?_append]; simp [hp]
    have h1 : storageContains (ss ++ [s]) p k = storageContains ss p k := by
      simp [storageContains, hsp]
    have h2 : parentOfS (ss ++ [s]) p = parentOfS ss p := by
      simp [parentOfS, hsp]
    simp only [containsChainFuel, h1, h2]
    by_cases hc : storageContains ss p k
    · simp [hc]
    · simp only [hc, Bool.false_eq_true, if_false]
      cases hq : parentOfS ss p with
      | none => rfl
      | some q => exact ih q (lt_trans (hwp p q hq) hp)

theorem containsChainFuel_set_above {ss : List Storage} {j : Nat} (s : Storage)
    (hwp : WellParented ss) (k : Key) :
    ∀ fuel p, p < j →
      containsChainFuel (ss.set j s) k fuel p = containsChainFuel ss k fuel p := by
  intro fuel
  induction fuel with
  | zero => intro p _; rfl
  | succ f ih =>
    intro p hp
    have hsp : (ss.set j s)[p]? = ss[p]? :=
      List.getElem?_set_ne (by omega)
    have h1 : storageContains (ss.set j s) p k = storageContains ss p k := by
      simp [storageContains, hsp]
    have h2 : parentOfS (ss.set j s) p = parentOfS ss p := by
      simp [parentOfS, hsp]
    simp only [containsChainFuel, h1, h2]
    by_cases hc : storageContains ss p k
    · simp [hc]
    · simp only [hc, Bool.false_eq_true, if_false]
      cases hq : parentOfS ss p with
      | none => rfl
      | some q => exact ih q (lt_trans (hwp p q hq) hp)

/-- A chain starting at or below `p` never finds `k` when every storage
up to `p` lacks it. -/
theorem containsChainFuel_eq_false {ss : List Storage} (hwp : WellParented ss) {k : Key}
    {p : Nat} (hlack : ∀ r, r ≤ p → storageContains ss r k = false) :
    ∀ fuel, containsChainFuel ss k fuel p = false := by
  induction p using Nat.strong_induction_on with
  | _ p ih =>
    intro fuel
    cases fuel with
    | zero => rfl
    | succ f =>
      simp only [containsChainFuel, hlack p le_rfl, Bool.false_eq_true, if_false]
      cases hq : parentOfS ss p with
      | none => rfl
      | some q =>
        have hqp := hwp p q hq
        exact ih q hqp (fun r hr => hlack r (by omega)) f

/-! ### Resolution helpers -/

theorem storageResolve_none {w : World} {p : Nat} {k : Key}
    (h : storageContains w.storages p k = false) :
    w.storageResolve p k = (none, w) := by
  cases hsp : w.storages[p]? with
  | none => simp [World.storageResolve, hsp]
  | some s =>
    cases hl : lookupKey s.factories k with
    | none => simp [World.storageResolve, hsp, hl]
    | some f =>
      simp only [storageContains, hsp, hl] at h
      simp at h

theorem storageResolve_ok {w : World} {p : Nat} {k : Key}
    (h : storageContains w.storages p k = true) :
    ∃ h₀ w1, w.storageResolve p k = (some h₀, w1) := by
  cases hsp : w.storages[p]? with
  | none => simp [storageContains, hsp] at h
  | some s =>
    cases hl : lookupKey s.factories k with
    | none => simp only [storageContains, hsp, hl] at h; simp at h
    | some f =>
      have h1 : (w.storageResolve p k).1 = some (f.resolve w.nextId).1 := by
        simp [World.storageResolve, hsp, hl]
      refine ⟨(f.resolve w.nextId).1, (w.storageResolve p k).2, ?_⟩
      rw [← h1]

theorem getWithTransientFlag_none {w : World} {p : Nat} {k : Key}
    (h : storageContains w.storages p k = false) :
    w.getWithTransientFlag p k = (none, w) := by
  cases hsp : w.storages[p]? with
  | none => simp [World.getWithTransientFlag, hsp]
  | some s =>
    cases hl : lookupKey s.factories k with
    | none => simp [World.getWithTransientFlag, hsp, hl]
    | some f =>
      simp only [storageContains, hsp, hl] at h
      simp at h

theorem resolveParentsFuel_error {cp : Nat} {k : Key} {w : World}
    (hwp : WellParented w.storages) :
    ∀ p fuel, p + 1 ≤ fuel → containsChainFuel w.storages k (p + 1) p = false →
      resolveParentsFuel cp k fuel w (some p) = (.error (.notFound k), w) := by
  intro p
  induction p using Nat.strong_induction_on with
  | _ p ih =>
    intro fuel hf hcc
    obtain ⟨f, rfl⟩ : ∃ f, fuel = f + 1 := ⟨fuel - 1, by omega⟩
    by_cases hsc : storageContains w.storages p k
    · simp [containsChainFuel, hsc] at hcc
    · simp only [containsChainFuel, hsc, Bool.false_eq_true, if_false] at hcc
      have hfalse : storageContains w.storages p k = false := by
        simpa using hsc
      simp only [resolveParentsFuel, storageResolve_none hfalse]
      cases hq : parentOfS w.storages p with
      | none => simp [resolveParentsFuel]
      | some q =>
        simp only [hq] at hcc
        have hqp := hwp p q hq
        rw [containsChainFuel_congr_fuel hwp k q p (by omega)] at hcc
        exact ih q hqp f (by omega) hcc

theorem resolveParentsFuel_ok {cp : Nat} {k : Key} {w : World}
    (hwp : WellParented w.storages) :
    ∀ p fuel, p + 1 ≤ fuel → containsChainFuel w.storages k (p + 1) p = true →
      ∃ h₀ w', resolveParentsFuel cp k fuel w (some p) = (.ok h₀, w') := by
  intro p
  induction p using Nat.strong_induction_on with
  | _ p ih =>
    intro fuel hf hcc
    obtain ⟨f, rfl⟩ : ∃ f, fuel = f + 1 := ⟨fuel - 1, by omega⟩
    by_cases hsc : storageContains w.storages p k
    · obtain ⟨h₀, w1, hr⟩ := storageResolve_ok hsc
      refine ⟨h₀, if w1.storageIsTransient p k then w1 else w1.cacheInsert k cp h₀, ?_⟩
      simp only [resolveParentsFuel, hr]
    · have hfalse : storageContains w.storages p k = false := by simpa using hsc
      simp only [containsChainFuel, hfalse, Bool.false_eq_true, if_false] at hcc
      simp only [resolveParentsFuel, storageResolve_none hfalse]
      cases hq : parentOfS w.storages p with
      | none => simp only [hq] at hcc; cases hcc
      | some q =>
        simp only [hq] at hcc
        have hqp := hwp p q hq
        rw [containsChainFuel_congr_fuel hwp k q p (by omega)] at hcc
        exact ih q hqp f (by omega) hcc

/-! ### Resolution never reads or writes the lock flags -/

/-- Replace the lock flags of a world (helper for lock-irrelevance). -/
def setLocks (w : World) (L : List Bool) : World := { w with locks := L }

theorem cacheGet_setLocks (w : World) (L : List Bool) (k ptr : Nat) :
    (setLocks w L).cacheGet k ptr = w.cacheGet k ptr := rfl

theorem cacheInsert_setLocks (w : World) (L : List Bool) (k ptr : Nat) (h : Handle) :
    (setLocks w L).cacheInsert k ptr h = setLocks (w.cacheInsert k ptr h) L := rfl

theorem storageIsTransient_setLocks (w : World) (L : List Bool) (p : Nat) (k : Key) :
    (setLocks w L).storageIsTransient p k = w.storageIsTransient p k := rfl

theorem storageResolve_setLocks (w : World) (L : List Bool) (p : Nat) (k : Key) :
    (setLocks w L).storageResolve p k =
      ((w.storageResolve p k).1, setLocks (w.storageResolve p k).2 L) := by
  cases hsp : w.storages[p]? with
  | none => simp [World.storageResolve, setLocks, hsp]
  | some s =>
    cases hl : lookupKey s.factories k with
    | none => simp [World.storageResolve, setLocks, hsp, hl]
    | some f => simp [World.storageResolve, setLocks, hsp, hl]

theorem getWithTransientFlag_setLocks (w : World) (L : List Bool) (p : Nat) (k : Key) :
    (setLocks w L).getWithTransientFlag p k =
      ((w.getWithTransientFlag p k).1, setLocks (w.getWithTransientFlag p k).2 L) := by
  cases hsp : w.storages[p]? with
  | none => simp [World.getWithTransientFlag, setLocks, hsp]
  | some s =>
    cases hl : lookupKey s.factories k with
    | none => simp [World.getWithTransientFlag, setLocks, hsp, hl]
    | some f => simp [World.getWithTransientFlag, setLocks, hsp, hl]

theorem resolveParentsFuel_setLocks (cp : Nat) (k : Key) (L : List Bool) :
    ∀ fuel (w : World) cur,
      resolveParentsFuel cp k fuel (setLocks w L) cur =
        ((resolveParentsFuel cp k fuel w cur).1,
         setLocks (resolveParentsFuel cp k fuel w cur).2 L) := by
  intro fuel
  induction fuel with
  | zero =>
    intro w cur
    cases cur <;> rfl
  | succ f ih =>
    intro w cur
    cases cur with
    | none => rfl
    | some p =>
      simp only [resolveParentsFuel, storageResolve_setLocks]
      cases hr : w.storageResolve p k with
      | mk ho w1 =>
        cases ho with
        | some h =>
          simp only [storageIsTransient_setLocks]
          by_cases ht : w1.storageIsTransient p k <;>
            simp [ht, cacheInsert_setLocks]
        | none =>
          simp only []
          have hpar : (setLocks w1 L).storages = w1.storages := rfl
          rw [hpar]
          exact ih w1 (parentOfS w1.storages p)

theorem getC_setLocks (w : World) (L : List Bool) (c : Container) (k : Key) :
    (setLocks w L).getC c k = ((w.getC c k).1, setLocks (w.getC c k).2 L) := by
  simp only [World.getC, cacheGet_setLocks]
  cases hc : w.cacheGet k c.storage with
  | some h => rfl
  | none =>
    simp only [getWithTransientFlag_setLocks]
    cases hg : w.getWithTransientFlag c.storage k with
    | mk ho w1 =>
      cases ho with
      | some pair =>
        obtain ⟨h, isT⟩ := pair
        by_cases ht : isT <;> simp [ht, cacheInsert_setLocks]
      | none =>
        simp only []
        by_cases hd : c.depth = 0
        · simp [hd, setLocks]
        · have hpar : (setLocks w1 L).storages = w1.storages := rfl
          simp only [hd, if_false, hpar]
          exact resolveParentsFuel_setLocks c.storage k L c.storage w1 _

theorem containsC_setLocks (w : World) (L : List Bool) (c : Container) (k : Key) :
    (setLocks w L).containsC c k = w.containsC c k := rfl

/-! ### Resolution leaves the lock flags unchanged -/

theorem storageResolve_locks (w : World) (p : Nat) (k : Key) :
    ((w.storageResolve p k).2).locks = w.locks := by
  cases hsp : w.storages[p]? with
  | none => simp [World.storageResolve, hsp]
  | some s =>
    cases hl : lookupKey s.factories k with
    | none => simp [World.storageResolve, hsp, hl]
    | some f => simp [World.storageResolve, hsp, hl]

theorem getWithTransientFlag_locks (w : World) (p : Nat) (k : Key) :
    ((w.getWithTransientFlag p k).2).locks = w.locks := by
  cases hsp : w.storages[p]? with
  | none => simp [World.getWithTransientFlag, hsp]
  | some s =>
    cases hl : lookupKey s.factories k with
    | none => simp [World.getWithTransientFlag, hsp, hl]
    | some f => simp [World.getWithTransientFlag, hsp, hl]

theorem resolveParentsFuel_locks (cp : Nat) (k : Key) :
    ∀ fuel (w : World) cur, ((resolveParentsFuel cp k fuel w cur).2).locks = w.locks := by
  intro fuel
  induction fuel with
  | zero => intro w cur; cases cur <;> rfl
  | succ f ih =>
    intro w cur
    cases cur with
    | none => rfl
    | some p =>
      simp only [resolveParentsFuel]
      cases hr : w.storageResolve p k with
      | mk ho w1 =>
        have hl1 : w1.locks = w.locks := by
          have := storageResolve_locks w p k
          rw [hr] at this
          exact this
        cases ho with
        | some h =>
          by_cases ht : w1.storageIsTransient p k <;>
            simp [ht, World.cacheInsert, hl1]
        | none => simp only []; rw [ih w1 _, hl1]

theorem getC_locks (w : World) (c : Container) (k : Key) :
    ((w.getC c k).2).locks = w.locks := by
  simp only [World.getC]
  cases hc : w.cacheGet k c.storage with
  | some h => rfl
  | none =>
    cases hg : w.getWithTransientFlag c.storage k with
    | mk ho w1 =>
      have hl1 : w1.locks = w.locks := by
        have := getWithTransientFlag_locks w c.storage k
        rw [hg] at this
        exact this
      cases ho with
      | some pair =>
        obtain ⟨h, isT⟩ := pair
        by_cases ht : isT <;> simp [ht, World.cacheInsert, hl1]
      | none =>
        by_cases hd : c.depth = 0
        · simp [hd, hl1]
        · simp only [hd, if_false]
          rw [resolveParentsFuel_locks c.storage k c.storage w1 _, hl1]

/-! ### Effects of registration and the hot cache -/

/-- Local factory lookup on the storage at index `p`
(the map access underlying `ServiceStorage::get`). -/
def lookupAt (ss : List Storage) (p : Nat) (k : Key) : Option Factory :=
  match ss[p]? with
  | some s => lookupKey s.factories k
  | none => none

theorem storageContains_eq_lookupAt (ss : List Storage) (p : Nat) (k : Key) :
    storageContains ss p k = (lookupAt ss p k).isSome := by
  cases hsp : ss[p]? with
  | none => simp [storageContains, lookupAt, hsp]
  | some s => simp [storageContains, lookupAt, hsp]

theorem insertFactory_lookup_self {w : World} {p : Nat} (hp : p < w.storages.length)
    (k : Key) (f : Factory) :
    lookupAt (w.insertFactory p k f).storages p k = some f := by
  obtain ⟨s, hs⟩ : ∃ s, w.storages[p]? = some s := by
    rw [List.getElem?_eq_getElem hp]; exact ⟨_, rfl⟩
  simp [World.insertFactory, hs, lookupAt, List.getElem?_set_self hp,
    lookupKey_insertKey_self]

theorem insertFactory_lookup_other_storage {w : World} {p p' : Nat} (hne : p' ≠ p)
    (k : Key) (f : Factory) :
    lookupAt (w.insertFactory p k f).storages p' k' = lookupAt w.storages p' k' := by
  cases hs : w.storages[p]? with
  | none => simp [World.insertFactory, hs]
  | some s => simp [World.insertFactory, hs, lookupAt, List.getElem?_set_ne (fun hh => hne hh.symm)]

theorem insertFactory_lookup_other_key {w : World} {p : Nat} {k k' : Key} (hne : k' ≠ k)
    (f : Factory) (p' : Nat) :
    lookupAt (w.insertFactory p k f).storages p' k' = lookupAt w.storages p' k' := by
  cases hs : w.storages[p]? with
  | none => simp [World.insertFactory, hs]
  | some s =>
    by_cases hpp : p' = p
    · subst hpp
      obtain ⟨hlt, _⟩ := List.getElem?_eq_some.mp hs
      simp [World.insertFactory, hs, lookupAt, List.getElem?_set_self hlt,
        lookupKey_insertKey_ne _ _ hne]
    · simp [World.insertFactory, hs, lookupAt, List.getElem?_set_ne (fun hh => hpp hh.symm)]

theorem insertFactory_cache (w : World) (p : Nat) (k : Key) (f : Factory) :
    (w.insertFactory p k f).cache = w.cache := by
  cases hs : w.storages[p]? with
  | none => simp [World.insertFactory, hs]
  | some s => simp [World.insertFactory, hs]

theorem insertFactory_locks (w : World) (p : Nat) (k : Key) (f : Factory) :
    (w.insertFactory p k f).locks = w.locks := by
  cases hs : w.storages[p]? with
  | none => simp [World.insertFactory, hs]
  | some s => simp [World.insertFactory, hs]

theorem insertFactory_nextId (w : World) (p : Nat) (k : Key) (f : Factory) :
    (w.insertFactory p k f).nextId = w.nextId := by
  cases hs : w.storages[p]? with
  | none => simp [World.insertFactory, hs]
  | some s => simp [World.insertFactory, hs]

theorem insertFactory_parentOfS (w : World) (p : Nat) (k : Key) (f : Factory) (q : Nat) :
    parentOfS (w.insertFactory p k f).storages q = parentOfS w.storages q := by
  cases hs : w.storages[p]? with
  | none => simp [World.insertFactory, hs]
  | some s =>
    by_cases hq : q = p
    · subst hq
      obtain ⟨hlt, _⟩ := List.getElem?_eq_some.mp hs
      simp [World.insertFactory, hs, parentOfS, List.getElem?_set_self hlt]
    · simp [World.insertFactory, hs, parentOfS, List.getElem?_set_ne (fun hh => hq hh.symm)]

theorem singletonC_some {w : World} {c : Container} {k : Key} {v : Val} {w' : World}
    (h : w.singletonC c k v = some w') :
    w.lockOf c = false ∧
      w' = { w.insertFactory c.storage k (.singleton ⟨w.nextId, v⟩) with
               nextId := (w.insertFactory c.storage k (.singleton ⟨w.nextId, v⟩)).nextId + 1 } := by
  by_cases hl : w.lockOf c
  · simp [World.singletonC, hl] at h
  · simp only [World.singletonC, hl, Bool.false_eq_true, if_false, Option.some.injEq] at h
    exact ⟨by simpa using hl, h.symm⟩

theorem slotForHash_lt (k ptr : Nat) : slotForHash k ptr < HOT_CACHE_SLOTS := by
  have : (0 : Nat) < HOT_CACHE_SLOTS := by decide
  exact Nat.mod_lt _ this

theorem cacheGet_cacheInsert_self {w : World} (hlen : w.cache.length = HOT_CACHE_SLOTS)
    (k ptr : Nat) (h : Handle) :
    (w.cacheInsert k ptr h).cacheGet k ptr = some h := by
  have hlt : slotForHash k ptr < w.cache.length := by
    rw [hlen]; exact slotForHash_lt k ptr
  simp [World.cacheGet, World.cacheInsert, List.getElem?_set_self hlt]

theorem cacheInsert_length (w : World) (k ptr : Nat) (h : Handle) :
    (w.cacheInsert k ptr h).cache.length = w.cache.length := by
  simp [World.cacheInsert]

/-! ### No API operation resets a lock flag -/

theorem lockOf_eq_of_locks_eq {w w' : World} (hl : w'.locks = w.locks) (c : Container) :
    w'.lockOf c = w.lockOf c := by
  unfold World.lockOf
  rw [hl]

theorem lockOf_locks_append {w : World} {c : Container} {bs : List Bool}
    (h : w.lockOf c = true) :
    (({ w with locks := w.locks ++ bs } : World)).lockOf c = true := by
  unfold World.lockOf at *
  rw [List.getD_eq_getElem?_getD] at h ⊢
  have hlt : c.lockRef < w.locks.length := by
    by_contra hh
    rw [List.getElem?_eq_none (by omega)] at h
    simp at h
  rw [List.getElem?_append]
  simpa [hlt] using h

theorem lockOf_lockC {w : World} {c c' : Container} (h : w.lockOf c = true) :
    (w.lockC c').lockOf c = true := by
  unfold World.lockOf World.lockC at *
  rw [List.getD_eq_getElem?_getD] at h ⊢
  have hlt : c.lockRef < w.locks.length := by
    by_contra hh
    rw [List.getElem?_eq_none (by omega)] at h
    simp at h
  rw [List.getElem?_set]
  by_cases hcc : c'.lockRef = c.lockRef
  · simp [hcc, hlt]
  · simpa [hcc] using h

theorem clearC_locks (w : World) (c : Container) : (w.clearC c).locks = w.locks := by
  cases hs : w.storages[c.storage]? with
  | none => simp [World.clearC, hs]
  | some s => simp [World.clearC, hs]

theorem singletonC_getD_locks (w : World) (c : Container) (k : Key) (v : Val) :
    ((w.singletonC c k v).getD w).locks = w.locks := by
  by_cases hl : w.lockOf c
  · simp [World.singletonC, hl]
  · simp [World.singletonC, hl, insertFactory_locks]

theorem lazyC_getD_locks (w : World) (c : Container) (k : Key) (init : Nat → Val) :
    ((w.lazyC c k init).getD w).locks = w.locks := by
  by_cases hl : w.lockOf c
  · simp [World.lazyC, hl]
  · simp [World.lazyC, hl, insertFactory_locks]

theorem transientC_getD_locks (w : World) (c : Container) (k : Key) (create : Nat → Val) :
    ((w.transientC c k create).getD w).locks = w.locks := by
  by_cases hl : w.lockOf c
  · simp [World.transientC, hl]
  · simp [World.transientC, hl, insertFactory_locks]

theorem registerByIdC_getD_locks (w : World) (c : Container) (k : Key) (h : Handle) :
    ((w.registerByIdC c k h).getD w).locks = w.locks := by
  by_cases hl : w.lockOf c
  · simp [World.registerByIdC, hl]
  · simp [World.registerByIdC, hl, insertFactory_locks]

theorem applyOp_lock_preserved {w : World} {c : Container} (op : ContOp)
    (h : w.lockOf c = true) : (applyOp w op).lockOf c = true := by
  cases op with
  | newOp => exact lockOf_locks_append h
  | scopeOp c' => exact lockOf_locks_append h
  | singletonOp c' k v =>
    show ((w.singletonC c' k v).getD w).lockOf c = true
    rw [lockOf_eq_of_locks_eq (singletonC_getD_locks w c' k v) c]; exact h
  | lazyOp c' k init =>
    show ((w.lazyC c' k init).getD w).lockOf c = true
    rw [lockOf_eq_of_locks_eq (lazyC_getD_locks w c' k init) c]; exact h
  | transientOp c' k create =>
    show ((w.transientC c' k create).getD w).lockOf c = true
    rw [lockOf_eq_of_locks_eq (transientC_getD_locks w c' k create) c]; exact h
  | registerByIdOp c' k hd =>
    show ((w.registerByIdC c' k hd).getD w).lockOf c = true
    rw [lockOf_eq_of_locks_eq (registerByIdC_getD_locks w c' k hd) c]; exact h
  | getOp c' k =>
    show (((w.getC c' k).2)).lockOf c = true
    rw [lockOf_eq_of_locks_eq (getC_locks w c' k) c]; exact h
  | containsOp c' k => exact h
  | lockOp c' => exact lockOf_lockC h
  | clearOp c' =>
    show ((w.clearC c')).lockOf c = true
    rw [lockOf_eq_of_locks_eq (clearC_locks w c') c]; exact h
  | clearCacheOp => exact h
  | lenOp c' => exact h
  | warmCacheOp c' k =>
    show (((w.getC c' k).2)).lockOf c = true
    rw [lockOf_eq_of_locks_eq (getC_locks w c' k) c]; exact h

/-- C5: after `lock()`, every `singleton`/`lazy`/`transient` registration
on the handle is a fatal error (the `check_not_locked` panic, modelled as
`none`, never a silent success), `get` and `contains` on the same handle
return exactly what they returned before locking, and no operation of the
`Container` API ever turns the lock flag off again. -/
theorem lock_is_final_and_reads_survive (w : World) (c : Container)
    (href : c.lockRef < w.locks.length) :
    (w.lockC c).lockOf c = true
    ∧ (∀ k v, (w.lockC c).singletonC c k v = none)
    ∧ (∀ k init, (w.lockC c).lazyC c k init = none)
    ∧ (∀ k create, (w.lockC c).transientC c k create = none)
    ∧ (∀ k, ((w.lockC c).getC c k).1 = (w.getC c k).1)
    ∧ (∀ k, (w.lockC c).containsC c k = w.containsC c k)
    ∧ (∀ w₂ op, w₂.lockOf c = true → (applyOp w₂ op).lockOf c = true) := by
  have hlocked : (w.lockC c).lockOf c = true := by
    unfold World.lockOf World.lockC
    rw [List.getD_eq_getElem?_getD, List.getElem?_set_self href]
    rfl
  refine ⟨hlocked, ?_, ?_, ?_, ?_, ?_, ?_⟩
  · intro k v; simp [World.singletonC, hlocked]
  · intro k init; simp [World.lazyC, hlocked]
  · intro k create; simp [World.transientC, hlocked]
  · intro k
    have hsl : w.lockC c = setLocks w (w.locks.set c.lockRef true) := rfl
    rw [hsl, getC_setLocks]
  · intro k; rfl
  · intro w₂ op hop; exact applyOp_lock_preserved op hop

/-- Witness for C5: a freshly created root container, locked; its
registrations panic while resolution is unchanged. -/
theorem lock_is_final_and_reads_survive_witness :
    ((World.init.newC).1).lockRef < ((World.init.newC).2).locks.length
    ∧ (((World.init.newC).2).lockC (World.init.newC).1).singletonC
        (World.init.newC).1 0 5 = none :=
  ⟨by decide,
   (lock_is_final_and_reads_survive (World.init.newC).2 (World.init.newC).1
      (by decide)).2.1 0 5⟩

/-! ### More resolution helpers -/

theorem cacheGet_eq_of_cache_eq {w w' : World} (h : w'.cache = w.cache) (k ptr : Nat) :
    w'.cacheGet k ptr = w.cacheGet k ptr := by
  unfold World.cacheGet
  rw [h]

theorem insertFactory_length (w : World) (p : Nat) (k : Key) (f : Factory) :
    (w.insertFactory p k f).storages.length = w.storages.length := by
  cases hs : w.storages[p]? with
  | none => simp [World.insertFactory, hs]
  | some s => simp [World.insertFactory, hs]

theorem getWithTransientFlag_singleton {w : World} {p : Nat} {k : Key} {h₀ : Handle}
    (h : lookupAt w.storages p k = some (.singleton h₀)) :
    w.getWithTransientFlag p k = (some (h₀, false), w) := by
  cases hsp : w.storages[p]? with
  | none => simp [lookupAt, hsp] at h
  | some s =>
    simp only [lookupAt, hsp] at h
    simp [World.getWithTransientFlag, hsp, h, Factory.resolve, Factory.isTransient]

theorem getWithTransientFlag_some {w : World} {p : Nat} {k : Key}
    (h : storageContains w.storages p k = true) :
    ∃ hb w1, w.getWithTransientFlag p k = (some hb, w1) := by
  cases hsp : w.storages[p]? with
  | none => simp [storageContains, hsp] at h
  | some s =>
    cases hl : lookupKey s.factories k with
    | none => simp only [storageContains, hsp, hl] at h; simp at h
    | some f =>
      have h1 : (w.getWithTransientFlag p k).1 = some ((f.resolve w.nextId).1, f.isTransient) := by
        simp [World.getWithTransientFlag, hsp, hl]
      exact ⟨((f.resolve w.nextId).1, f.isTransient), (w.getWithTransientFlag p k).2, by rw [← h1]⟩

theorem getC_local_singleton {w : World} {c : Container} {k : Key} {h₀ : Handle}
    (hcache : w.cacheGet k c.storage = none)
    (hloc : lookupAt w.storages c.storage k = some (.singleton h₀)) :
    w.getC c k = (.ok h₀, w.cacheInsert k c.storage h₀) := by
  simp [World.getC, hcache, getWithTransientFlag_singleton hloc]

/-! ### Effects of `Container::clear` -/

theorem clearC_cache (w : World) (c : Container) : (w.clearC c).cache = w.cache := by
  cases hs : w.storages[c.storage]? with
  | none => simp [World.clearC, hs]
  | some s => simp [World.clearC, hs]

theorem clearC_nextId (w : World) (c : Container) : (w.clearC c).nextId = w.nextId := by
  cases hs : w.storages[c.storage]? with
  | none => simp [World.clearC, hs]
  | some s => simp [World.clearC, hs]

theorem clearC_parentOfS (w : World) (c : Container) (q : Nat) :
    parentOfS (w.clearC c).storages q = parentOfS w.storages q := by
  cases hs : w.storages[c.storage]? with
  | none => simp [World.clearC, hs]
  | some s =>
    by_cases hq : q = c.storage
    · subst hq
      obtain ⟨hlt, _⟩ := List.getElem?_eq_some.mp hs
      simp [World.clearC, hs, parentOfS, List.getElem?_set_self hlt]
    · simp [World.clearC, hs, parentOfS, List.getElem?_set_ne (fun hh => hq hh.symm)]

theorem clearC_contains_self (w : World) (c : Container) (k : Key) :
    storageContains (w.clearC c).storages c.storage k = false := by
  cases hs : w.storages[c.storage]? with
  | none => simp [World.clearC, hs, storageContains]
  | some s =>
    obtain ⟨hlt, _⟩ := List.getElem?_eq_some.mp hs
    simp [World.clearC, hs, storageContains, List.getElem?_set_self hlt, lookupKey]

theorem clearC_contains_other (w : World) (c : Container) {q : Nat} (hq : q ≠ c.storage)
    (k : Key) :
    storageContains (w.clearC c).storages q k = storageContains w.storages q k := by
  cases hs : w.storages[c.storage]? with
  | none => simp [World.clearC, hs]
  | some s =>
    simp [World.clearC, hs, storageContains, List.getElem?_set_ne (fun hh => hq hh.symm)]

theorem clearC_wellParented {w : World} {c : Container}
    (hwp : WellParented w.storages) : WellParented (w.clearC c).storages := by
  cases hs : w.storages[c.storage]? with
  | none => simp only [World.clearC, hs]; exact hwp
  | some s =>
    simp only [World.clearC, hs]
    exact wellParented_set hwp hs rfl

/-! ### Resolution outcome from the shape of the chain -/

/-- When `X` is absent from a container's storage and from every storage
below it, and the thread cache has no entry for it, `get` fails with
`NotFound` and `contains` is false. -/
theorem getC_notFound_of_absent {w0 : World} {c2 : Container} {X : Key}
    (hwp : WellParented w0.storages)
    (hself : storageContains w0.storages c2.storage X = false)
    (hlack : ∀ r, r < c2.storage → storageContains w0.storages r X = false)
    (hcache : w0.cacheGet X c2.storage = none) :
    (w0.getC c2 X).1 = .error (.notFound X) ∧ w0.containsC c2 X = false := by
  have hboth : ∀ r, r ≤ c2.storage → storageContains w0.storages r X = false := by
    intro r hr
    rcases Nat.lt_or_ge r c2.storage with hlt | hge
    · exact hlack r hlt
    · have : r = c2.storage := by omega
      rw [this]; exact hself
  constructor
  · have hflag := getWithTransientFlag_none (w := w0) hself
    by_cases hd : c2.depth = 0
    · simp [World.getC, hcache, hflag, hd]
    · cases hpq : parentOfS w0.storages c2.storage with
      | none =>
        simp [World.getC, hcache, hflag, hd, hpq, resolveParentsFuel]
      | some q =>
        have hqlt := hwp c2.storage q hpq
        have hchain : containsChainFuel w0.storages X (q + 1) q = false :=
          containsChainFuel_eq_false hwp (fun r hr => hboth r (by omega)) (q + 1)
        have herr := @resolveParentsFuel_error c2.storage X w0
          hwp q c2.storage (by omega) hchain
        simp [World.getC, hcache, hflag, hd, hpq, herr]
  · exact containsChainFuel_eq_false hwp hboth (c2.storage + 1)

/-- When some ancestor chain entry holds `k'` and the container has a
parent, `get` succeeds (from the cache, the local storage, or the
ancestor walk — whichever is hit first). -/
theorem getC_ok_of_ancestor {w0 : World} {c2 : Container} {k' : Key} {q : Nat}
    (hwp : WellParented w0.storages)
    (hq : parentOfS w0.storages c2.storage = some q)
    (hdep : c2.depth ≠ 0)
    (hk' : containsChainFuel w0.storages k' (q + 1) q = true) :
    ∃ h₀, (w0.getC c2 k').1 = .ok h₀ := by
  cases hcg : w0.cacheGet k' c2.storage with
  | some h₀ => exact ⟨h₀, by simp [World.getC, hcg]⟩
  | none =>
    by_cases hself : storageContains w0.storages c2.storage k'
    · obtain ⟨hb, w1, hres⟩ := getWithTransientFlag_some hself
      refine ⟨hb.1, ?_⟩
      by_cases ht : hb.2 <;> simp [World.getC, hcg, hres, ht]
    · have hfalse : storageContains w0.storages c2.storage k' = false := by simpa using hself
      have hflag := getWithTransientFlag_none (w := w0) hfalse
      have hqlt := hwp c2.storage q hq
      obtain ⟨h₀, w', hok⟩ := @resolveParentsFuel_ok c2.storage k' w0
        hwp q c2.storage (by omega) hk'
      exact ⟨h₀, by simp [World.getC, hcg, hflag, hdep, hq, hok]⟩

theorem clearC_chain_below {w : World} {c : Container} (hwp : WellParented w.storages)
    {q : Nat} (hq : q < c.storage) (k : Key) (fuel : Nat) :
    containsChainFuel (w.clearC c).storages k fuel q
      = containsChainFuel w.storages k fuel q := by
  cases hs : w.storages[c.storage]? with
  | none => simp [World.clearC, hs]
  | some s =>
    simp only [World.clearC, hs]
    exact containsChainFuel_set_above _ hwp k fuel q hq

/-! ### Claim C1 -/

/-- C1 counterexample: in the concrete `ScenarioOverride` run the parent
registers (0 ↦ 10, handle id 0), the child scope performs a `get` for
key 0 (an ancestor hit cached under the child's registry identity), and
the child then registers (0 ↦ 20, handle id 1).  The claim says the next
`C.get` returns the value registered on C regardless of such intervening
gets; the code instead returns the stale cached parent handle ⟨0, 10⟩. -/
theorem override_stale_cache_counterexample :
    lookupAt ScenarioOverride.w5.storages ScenarioOverride.childC.storage 0
      = some (.singleton ⟨1, 20⟩)
    ∧ (ScenarioOverride.w5.getC ScenarioOverride.childC 0).1 = .ok ⟨0, 10⟩
    ∧ (ScenarioOverride.w5.getC ScenarioOverride.childC 0).1 ≠ .ok ⟨1, 20⟩ := by
  refine ⟨rfl, rfl, ?_⟩
  intro h
  rw [show (ScenarioOverride.w5.getC ScenarioOverride.childC 0).1
        = Except.ok ⟨0, 10⟩ from rfl] at h
  exact absurd (Except.ok.inj h) (by decide)

/-- C1 (amended): registering `k` on parent `P` and afterwards on the
child `C` makes `C.get` return the handle registered on C and `P.get`
the handle registered on P, provided the thread-local hot cache holds no
entry for `k` under either registry when the gets run — in particular
when `C` performed no `get` for `k` between the registrations. -/
theorem override_shadowing (w : World) (P C : Container) (k : Key) (vP vC : Val)
    (w1 w2 : World)
    (_hpar : parentOfS w.storages C.storage = some P.storage)
    (hPb : P.storage < w.storages.length)
    (hCb : C.storage < w.storages.length)
    (hne : C.storage ≠ P.storage)
    (hr1 : w.singletonC P k vP = some w1)
    (hr2 : w1.singletonC C k vC = some w2)
    (hcC : w2.cacheGet k C.storage = none)
    (hcP : w2.cacheGet k P.storage = none) :
    (w2.getC C k).1 = .ok ⟨w1.nextId, vC⟩ ∧ (w2.getC P k).1 = .ok ⟨w.nextId, vP⟩ := by
  obtain ⟨-, hw1⟩ := singletonC_some hr1
  obtain ⟨-, hw2⟩ := singletonC_some hr2
  have hs1 : w1.storages
      = (w.insertFactory P.storage k (.singleton ⟨w.nextId, vP⟩)).storages := by
    rw [hw1]
  have hlen1 : w1.storages.length = w.storages.length := by
    rw [hs1, insertFactory_length]
  have hs2 : w2.storages
      = (w1.insertFactory C.storage k (.singleton ⟨w1.nextId, vC⟩)).storages := by
    rw [hw2]
  have hlookC : lookupAt w2.storages C.storage k = some (.singleton ⟨w1.nextId, vC⟩) := by
    rw [hs2]
    exact insertFactory_lookup_self (by omega) k _
  have hlookP : lookupAt w2.storages P.storage k = some (.singleton ⟨w.nextId, vP⟩) := by
    rw [hs2, insertFactory_lookup_other_storage (fun hh => hne hh.symm) k _, hs1]
    exact insertFactory_lookup_self hPb k _
  constructor
  · rw [getC_local_singleton hcC hlookC]
  · rw [getC_local_singleton hcP hlookP]

/-- Witness for the amended C1 on the clean concrete run (no get between
the registrations): the child resolves its own handle ⟨1, 20⟩ and the
root its own handle ⟨0, 10⟩. -/
theorem override_shadowing_witness :
    ScenarioShadow.wB.singletonC ScenarioShadow.rootC 0 10 = some ScenarioShadow.wC
    ∧ (ScenarioShadow.wD.getC ScenarioShadow.childC 0).1 = .ok ⟨1, 20⟩
    ∧ (ScenarioShadow.wD.getC ScenarioShadow.rootC 0).1 = .ok ⟨0, 10⟩ :=
  ⟨rfl,
   (override_shadowing ScenarioShadow.wB ScenarioShadow.rootC ScenarioShadow.childC 0 10 20
      ScenarioShadow.wC ScenarioShadow.wD (by decide) (by decide) (by decide) (by decide)
      rfl rfl (by decide) (by decide)).1,
   (override_shadowing ScenarioShadow.wB ScenarioShadow.rootC ScenarioShadow.childC 0 10 20
      ScenarioShadow.wC ScenarioShadow.wD (by decide) (by decide) (by decide) (by decide)
      rfl rfl (by decide) (by decide)).2⟩

/-! ### Claim C3 -/

/-- C3 counterexample: concrete `ScenarioClear` run — key 7 is registered
only on the root, resolved once (populating the hot cache), then the
container is cleared.  The claim demands `NotFound` "including when C
resolved T on the same thread before the clear"; the code returns the
stale cached handle instead. -/
theorem clear_stale_cache_counterexample :
    ScenarioClear.u4.lenC ScenarioClear.rootC = 0
    ∧ (ScenarioClear.u4.getC ScenarioClear.rootC 7).1 = .ok ⟨0, 42⟩
    ∧ (ScenarioClear.u4.getC ScenarioClear.rootC 7).1 ≠ .error (.notFound 7) := by
  refine ⟨by decide, rfl, ?_⟩
  intro h
  rw [show (ScenarioClear.u4.getC ScenarioClear.rootC 7).1
        = Except.ok ⟨0, 42⟩ from rfl] at h
  exact Except.noConfusion h

/-- C3 (amended): after `clear()` on `C`, a key `k` that lived only in
C's local registry fails with `NotFound` provided the thread cache holds
no entry for it under C (e.g. C never resolved it on this thread before
the clear), while any key `k'` registered along C's ancestor chain stays
resolvable through C. -/
theorem clear_removes_local_keeps_ancestors (w : World) (c : Container) (k k' : Key) (q : Nat)
    (hwp : wellParentedB w.storages = true)
    (honly : ∀ p, p < w.storages.length → p ≠ c.storage → storageContains w.storages p k = false)
    (hcache : w.cacheGet k c.storage = none)
    (hq : parentOfS w.storages c.storage = some q)
    (hdep : c.depth ≠ 0)
    (hk' : containsChainFuel w.storages k' (q + 1) q = true) :
    ((w.clearC c).getC c k).1 = .error (.notFound k)
    ∧ ∃ h₀, ((w.clearC c).getC c k').1 = .ok h₀ := by
  have hwpP := wellParented_of_B hwp
  have hwp' := clearC_wellParented (c := c) hwpP
  constructor
  · refine (getC_notFound_of_absent hwp' (clearC_contains_self w c k) ?_ ?_).1
    · intro r hr
      by_cases hrlen : r < w.storages.length
      · rw [clearC_contains_other w c (by omega) k]
        exact honly r hrlen (by omega)
      · rw [clearC_contains_other w c (by omega) k]
        simp [storageContains, List.getElem?_eq_none (le_of_not_lt hrlen)]
    · rw [cacheGet_eq_of_cache_eq (clearC_cache w c)]
      exact hcache
  · refine getC_ok_of_ancestor (q := q) hwp' ?_ hdep ?_
    · rw [clearC_parentOfS]; exact hq
    · have hqlt := hwpP c.storage q hq
      rw [clearC_chain_below hwpP hqlt]
      exact hk'

/-- Witness for the amended C3 on `ScenarioClearSplit`: key 7 lives only
on the child and fails after clear; key 3 on the root stays resolvable
through the child. -/
theorem clear_removes_local_keeps_ancestors_witness :
    parentOfS ScenarioClearSplit.v4.storages ScenarioClearSplit.childC.storage = some 0
    ∧ ((ScenarioClearSplit.v4.clearC ScenarioClearSplit.childC).getC
        ScenarioClearSplit.childC 7).1 = .error (.notFound 7)
    ∧ ∃ h₀, ((ScenarioClearSplit.v4.clearC ScenarioClearSplit.childC).getC
        ScenarioClearSplit.childC 3).1 = .ok h₀ :=
  ⟨by decide,
   (clear_removes_local_keeps_ancestors ScenarioClearSplit.v4 ScenarioClearSplit.childC 7 3 0
      (by decide) (by decide) (by decide) (by decide) (by decide) (by decide)).1,
   (clear_removes_local_keeps_ancestors ScenarioClearSplit.v4 ScenarioClearSplit.childC 7 3 0
      (by decide) (by decide) (by decide) (by decide) (by decide) (by decide)).2⟩

/-! ### Claim C2 -/

/-- C2 counterexample: concrete `ScenarioPool` run — a pooled scope
registers key 5, resolves it via `get` (populating the thread cache),
and is released; the claim says the next acquired scope cannot resolve
key 5, yet `get` succeeds with the leaked handle ⟨0, 77⟩ because the
recycled storage has the same pointer identity the cache entry is keyed
by.  (`contains` is false, as the claim says.) -/
theorem pool_leak_counterexample :
    ScenarioPool.sc2.storage = ScenarioPool.sc1.storage
    ∧ ScenarioPool.p6.containsC ScenarioPool.sc2 5 = false
    ∧ (ScenarioPool.p6.getC ScenarioPool.sc2 5).1 = .ok ⟨0, 77⟩ :=
  ⟨by decide, by decide, rfl⟩

/-- C2 (amended): releasing a pooled scope clears its storage, and the
next acquire returns the same slot with `contains::<X>() = false`; and
`get::<X>()` fails with `NotFound` provided the earlier use left no
thread-cache entry for `X` under this scope's registry identity — in
particular when it registered `X` but never resolved it via `get`. -/
theorem pool_release_then_acquire_fresh (w : World) (pool : ScopePool) (c : Container)
    (X : Key)
    (hwp : wellParentedB w.storages = true)
    (honly : ∀ p, p < w.storages.length → p ≠ c.storage → storageContains w.storages p X = false)
    (hcache : w.cacheGet X c.storage = none) :
    ((w.poolRelease pool c).2.poolAcquire (w.poolRelease pool c).1).1.storage = c.storage
    ∧ ((w.poolRelease pool c).2.poolAcquire (w.poolRelease pool c).1).2.2.containsC
        ((w.poolRelease pool c).2.poolAcquire (w.poolRelease pool c).1).1 X = false
    ∧ ((((w.poolRelease pool c).2.poolAcquire (w.poolRelease pool c).1).2.2.getC
        ((w.poolRelease pool c).2.poolAcquire (w.poolRelease pool c).1).1 X)).1
        = .error (.notFound X) := by
  have hwpP := wellParented_of_B hwp
  have hpool1 : (w.poolRelease pool c).1 =
      { pool with available := pool.available ++ [(c.storage, c.lockRef)] } := rfl
  have hlast : ((w.poolRelease pool c).1).available.getLast? = some (c.storage, c.lockRef) := by
    rw [hpool1]
    exact List.getLast?_concat _
  have hacq : ((w.poolRelease pool c).2.poolAcquire (w.poolRelease pool c).1) =
      (⟨c.storage, some pool.parentStorage, c.lockRef, pool.parentDepth + 1⟩,
       ⟨pool.parentStorage, (pool.available ++ [(c.storage, c.lockRef)]).dropLast,
        pool.parentDepth⟩,
       (w.poolRelease pool c).2) := by
    simp [World.poolAcquire, hlast, hpool1]
  rw [hacq]
  have hstor : ((w.poolRelease pool c).2).storages = (w.clearC c).storages := rfl
  have hwp0 : WellParented ((w.poolRelease pool c).2).storages := by
    rw [hstor]
    exact clearC_wellParented hwpP
  have habsent := @getC_notFound_of_absent ((w.poolRelease pool c).2)
    (⟨c.storage, some pool.parentStorage, c.lockRef, pool.parentDepth + 1⟩)
    X hwp0
    (by rw [hstor]; exact clearC_contains_self w c X)
    (by
      intro r hr
      have hr2 : r < c.storage := hr
      rw [hstor]
      by_cases hrlen : r < w.storages.length
      · rw [clearC_contains_other w c (by omega) X]
        exact honly r hrlen (by omega)
      · rw [clearC_contains_other w c (by omega) X]
        simp [storageContains, List.getElem?_eq_none (le_of_not_lt hrlen)])
    (by
      have hc1 : ((w.poolRelease pool c).2).cache = w.cache := clearC_cache w c
      rw [cacheGet_eq_of_cache_eq hc1]
      exact hcache)
  exact ⟨rfl, habsent.2, habsent.1⟩

/-- Witness for the amended C2 on `ScenarioPoolClean`: the scope
registered key 5 but never resolved it, so after release the next
acquire neither contains nor resolves it. -/
theorem pool_release_then_acquire_fresh_witness :
    ScenarioPoolClean.q4.cacheGet 5 ScenarioPoolClean.sc1.storage = none
    ∧ ((ScenarioPoolClean.q4.poolRelease ScenarioPoolClean.pool1 ScenarioPoolClean.sc1).2.poolAcquire
        (ScenarioPoolClean.q4.poolRelease ScenarioPoolClean.pool1 ScenarioPoolClean.sc1).1).2.2.containsC
        ((ScenarioPoolClean.q4.poolRelease ScenarioPoolClean.pool1 ScenarioPoolClean.sc1).2.poolAcquire
          (ScenarioPoolClean.q4.poolRelease ScenarioPoolClean.pool1 ScenarioPoolClean.sc1).1).1 5 = false
    ∧ ((((ScenarioPoolClean.q4.poolRelease ScenarioPoolClean.pool1 ScenarioPoolClean.sc1).2.poolAcquire
        (ScenarioPoolClean.q4.poolRelease ScenarioPoolClean.pool1 ScenarioPoolClean.sc1).1).2.2.getC
        ((ScenarioPoolClean.q4.poolRelease ScenarioPoolClean.pool1 ScenarioPoolClean.sc1).2.poolAcquire
          (ScenarioPoolClean.q4.poolRelease ScenarioPoolClean.pool1 ScenarioPoolClean.sc1).1).1 5)).1
        = .error (.notFound 5) :=
  ⟨by decide,
   (pool_release_then_acquire_fresh ScenarioPoolClean.q4 ScenarioPoolClean.pool1
      ScenarioPoolClean.sc1 5 (by decide) (by decide) (by decide)).2.1,
   (pool_release_then_acquire_fresh ScenarioPoolClean.q4 ScenarioPoolClean.pool1
      ScenarioPoolClean.sc1 5 (by decide) (by decide) (by decide)).2.2⟩

/-! ### Claim C10 -/

/-- C10: `contains` never consults the thread-local hot cache — swapping
the entire cache leaves its value unchanged (and by its type it writes
nothing) — so after a registry mutation `contains` and `get` on the same
thread can disagree: in the concrete register–resolve–clear run,
`contains` reports key 7 absent while `get` still returns the cached
handle. -/
theorem contains_ignores_hot_cache :
    (∀ (ss : List Storage) (locks : List Bool) (cache cache' : List (Option CacheEntry))
       (nid : Nat) (c : Container) (k : Key),
        (⟨ss, locks, cache, nid⟩ : World).containsC c k
          = (⟨ss, locks, cache', nid⟩ : World).containsC c k)
    ∧ ScenarioClear.u4.containsC ScenarioClear.rootC 7 = false
    ∧ (ScenarioClear.u4.getC ScenarioClear.rootC 7).1 = .ok ⟨0, 42⟩ :=
  ⟨fun _ _ _ _ _ _ _ => rfl, by decide, rfl⟩

/-! ### Claim C4 -/

theorem resolveSeq_lazy_initialized (init : Nat → Val) (h : Handle) (e : Nat) :
    ∀ m fresh, resolveSeq (.lazy init (some h) e) fresh m
      = (List.replicate m h, .lazy init (some h) e, fresh) := by
  intro m
  induction m with
  | zero => intro fresh; rfl
  | succ n ih =>
    intro fresh
    simp [resolveSeq, Factory.resolve, ih, List.replicate]

/-- C4: for a freshly registered lazy entry, any sequence of `n` resolve
calls evaluates the init function exactly once when `n ≥ 1` and never
when `n = 0` (the ghost `lazyEvals` counter counts evaluations), and
every call returns the one handle produced by the first evaluation — no
two distinct handles are ever observed for the entry. -/
theorem lazy_init_at_most_once (init : Nat → Val) (fresh : Nat) (n : Nat) :
    (resolveSeq (.lazy init none 0) fresh n).2.1.lazyEvals = (if n = 0 then 0 else 1)
    ∧ (resolveSeq (.lazy init none 0) fresh n).1
        = List.replicate n (⟨fresh, init fresh⟩ : Handle) := by
  cases n with
  | zero => exact ⟨rfl, rfl⟩
  | succ m =>
    have hstep : resolveSeq (.lazy init none 0) fresh (m + 1)
        = ((⟨fresh, init fresh⟩ : Handle) ::
            (resolveSeq (.lazy init (some ⟨fresh, init fresh⟩) 1) (fresh + 1) m).1,
           (resolveSeq (.lazy init (some ⟨fresh, init fresh⟩) 1) (fresh + 1) m).2) := by
      simp [resolveSeq, Factory.resolve]
    rw [hstep, resolveSeq_lazy_initialized]
    exact ⟨rfl, rfl⟩

/-! ### Claim C6 -/

theorem cacheGet_none_of_lacks {w : World} {k : Key} (hC : cacheLacksB w k = true)
    (ptr : Nat) : w.cacheGet k ptr = none := by
  unfold World.cacheGet
  cases hce : w.cache[slotForHash k ptr]? with
  | none => rfl
  | some oce =>
    cases oce with
    | none => rfl
    | some ce =>
      have hmem : (some ce) ∈ w.cache := List.getElem?_mem hce
      rw [cacheLacksB, List.all_eq_true] at hC
      have hne : ce.typeHash ≠ k := of_decide_eq_true (hC (some ce) hmem)
      show (if ce.typeHash = k ∧ ce.storagePtr = ptr then some ce.service else none) = none
      rw [if_neg (fun hcon => hne hcon.1)]

theorem transientOnly_lookup {w : World} {k : Key} (hT : transientOnlyB w k = true)
    {p : Nat} {s : Storage} (hs : w.storages[p]? = some s) {f : Factory}
    (hl : lookupKey s.factories k = some f) : ∃ g, f = .transient g := by
  rw [transientOnlyB, List.all_eq_true] at hT
  have hx := hT s (List.getElem?_mem hs)
  rw [hl] at hx
  cases f with
  | transient g => exact ⟨g, rfl⟩
  | singleton h => simp [Factory.isTransient] at hx
  | lazy a b e => simp [Factory.isTransient] at hx

theorem resolveParentsFuel_transient {k : Key} (cp : Nat) :
    ∀ fuel (w : World) cur, transientOnlyB w k = true →
      (resolveParentsFuel cp k fuel w cur).2.cache = w.cache
      ∧ (resolveParentsFuel cp k fuel w cur).2.storages = w.storages
      ∧ (∀ h, (resolveParentsFuel cp k fuel w cur).1 = .ok h →
          h.id = w.nextId ∧ (resolveParentsFuel cp k fuel w cur).2.nextId = w.nextId + 1) := by
  intro fuel
  induction fuel with
  | zero =>
    intro w cur _
    cases cur with
    | none => exact ⟨rfl, rfl, fun h hh => Except.noConfusion hh⟩
    | some p => exact ⟨rfl, rfl, fun h hh => Except.noConfusion hh⟩
  | succ f ih =>
    intro w cur hT
    cases cur with
    | none => exact ⟨rfl, rfl, fun h hh => Except.noConfusion hh⟩
    | some p =>
      cases hsp : w.storages[p]? with
      | none =>
        have hres : w.storageResolve p k = (none, w) :=
          storageResolve_none (by simp [storageContains, hsp])
        simp only [resolveParentsFuel, hres]
        exact ih w (parentOfS w.storages p) hT
      | some s =>
        cases hl : lookupKey s.factories k with
        | none =>
          have hres : w.storageResolve p k = (none, w) :=
            storageResolve_none (by simp [storageContains, hsp, hl])
          simp only [resolveParentsFuel, hres]
          exact ih w (parentOfS w.storages p) hT
        | some f0 =>
          obtain ⟨g, rfl⟩ := transientOnly_lookup hT hsp hl
          have hres : w.storageResolve p k
              = (some ⟨w.nextId, g w.nextId⟩, { w with nextId := w.nextId + 1 }) := by
            simp [World.storageResolve, hsp, hl, Factory.resolve]
          have hit : ({ w with nextId := w.nextId + 1 } : World).storageIsTransient p k
              = true := by
            simp [World.storageIsTransient, hsp, hl, Factory.isTransient]
          have hstep : resolveParentsFuel cp k (f + 1) w (some p)
              = (.ok ⟨w.nextId, g w.nextId⟩, { w with nextId := w.nextId + 1 }) := by
            simp only [resolveParentsFuel, hres]
            rw [hit]
            simp
          rw [hstep]
          refine ⟨rfl, rfl, ?_⟩
          intro h hh
          obtain rfl : (⟨w.nextId, g w.nextId⟩ : Handle) = h := Except.ok.inj hh
          exact ⟨rfl, rfl⟩

theorem getC_transient_step {w : World} {c : Container} {k : Key}
    (hT : transientOnlyB w k = true) (hC : cacheLacksB w k = true) :
    (w.getC c k).2.cache = w.cache
    ∧ (w.getC c k).2.storages = w.storages
    ∧ (∀ h, (w.getC c k).1 = .ok h →
        h.id = w.nextId ∧ (w.getC c k).2.nextId = w.nextId + 1) := by
  have hcg := cacheGet_none_of_lacks hC c.storage
  cases hsp : w.storages[c.storage]? with
  | none =>
    have hflag : w.getWithTransientFlag c.storage k = (none, w) :=
      getWithTransientFlag_none (by simp [storageContains, hsp])
    by_cases hd : c.depth = 0
    · have hstep : w.getC c k = (.error (.notFound k), w) := by
        simp [World.getC, hcg, hflag, hd]
      rw [hstep]
      exact ⟨rfl, rfl, fun h hh => Except.noConfusion hh⟩
    · have hstep : w.getC c k
          = resolveParentsFuel c.storage k c.storage w (parentOfS w.storages c.storage) := by
        simp [World.getC, hcg, hflag, hd]
      rw [hstep]
      exact resolveParentsFuel_transient c.storage c.storage w _ hT
  | some s =>
    cases hl : lookupKey s.factories k with
    | none =>
      have hflag : w.getWithTransientFlag c.storage k = (none, w) :=
        getWithTransientFlag_none (by simp [storageContains, hsp, hl])
      by_cases hd : c.depth = 0
      · have hstep : w.getC c k = (.error (.notFound k), w) := by
          simp [World.getC, hcg, hflag, hd]
        rw [hstep]
        exact ⟨rfl, rfl, fun h hh => Except.noConfusion hh⟩
      · have hstep : w.getC c k
            = resolveParentsFuel c.storage k c.storage w (parentOfS w.storages c.storage) := by
          simp [World.getC, hcg, hflag, hd]
        rw [hstep]
        exact resolveParentsFuel_transient c.storage c.storage w _ hT
    | some f0 =>
      obtain ⟨g, rfl⟩ := transientOnly_lookup hT hsp hl
      have hflag : w.getWithTransientFlag c.storage k
          = (some (⟨w.nextId, g w.nextId⟩, true), { w with nextId := w.nextId + 1 }) := by
        simp [World.getWithTransientFlag, hsp, hl, Factory.resolve, Factory.isTransient]
      have hstep : w.getC c k
          = (.ok ⟨w.nextId, g w.nextId⟩, { w with nextId := w.nextId + 1 }) := by
        simp [World.getC, hcg, hflag]
      rw [hstep]
      refine ⟨rfl, rfl, ?_⟩
      intro h hh
      obtain rfl : (⟨w.nextId, g w.nextId⟩ : Handle) = h := Except.ok.inj hh
      exact ⟨rfl, rfl⟩

/-- C6: when key `k` is registered only as a transient (every storage
that holds it holds a transient entry) and the thread cache has no entry
for it, `get` never writes the hot cache and never changes the
registries (covering both the local-hit and the ancestor-hit path), each
successful `get` returns a freshly allocated handle and advances the
allocation counter (the create function evaluated anew), two successive
gets return handles of different identities, and the transient factory
variant reports `is_transient() = true`. -/
theorem transient_fresh_every_get (w : World) (c : Container) (k : Key)
    (hT : transientOnlyB w k = true) (hC : cacheLacksB w k = true) :
    (w.getC c k).2.cache = w.cache
    ∧ (w.getC c k).2.storages = w.storages
    ∧ (∀ h, (w.getC c k).1 = .ok h →
        h.id = w.nextId ∧ (w.getC c k).2.nextId = w.nextId + 1)
    ∧ (∀ h h₂, (w.getC c k).1 = .ok h → ((w.getC c k).2.getC c k).1 = .ok h₂ →
        h₂.id = w.nextId + 1 ∧ h.id ≠ h₂.id)
    ∧ (∀ g : Nat → Val, (Factory.transient g).isTransient = true) := by
  obtain ⟨h1, h2, h3⟩ := getC_transient_step (c := c) hT hC
  refine ⟨h1, h2, h3, ?_, fun g => rfl⟩
  intro h h₂ hok hok2
  have hT' : transientOnlyB (w.getC c k).2 k = true := by
    simp only [transientOnlyB] at hT ⊢
    rw [h2]
    exact hT
  have hC' : cacheLacksB (w.getC c k).2 k = true := by
    simp only [cacheLacksB] at hC ⊢
    rw [h1]
    exact hC
  obtain ⟨-, -, h3'⟩ := getC_transient_step (c := c) hT' hC'
  obtain ⟨hid, hnid⟩ := h3 h hok
  obtain ⟨hid2, -⟩ := h3' h₂ hok2
  constructor
  · rw [hid2, hnid]
  · rw [hid, hid2, hnid]
    omega

/-- Witness for C6 on `ScenarioTransient`: a root container with a
transient registration for key 4; `get` leaves the hot cache untouched. -/
theorem transient_fresh_every_get_witness :
    transientOnlyB ScenarioTransient.t2 4 = true
    ∧ (ScenarioTransient.t2.getC ScenarioTransient.rootC 4).2.cache
        = ScenarioTransient.t2.cache :=
  ⟨by decide,
   (transient_fresh_every_get ScenarioTransient.t2 ScenarioTransient.rootC 4
      (by decide) (by decide)).1⟩

/-! ### Claim C7 -/

theorem getC_singleton_invariant {w : World} {c : Container} {k : Key} {h₀ : Handle}
    (hloc : lookupAt w.storages c.storage k = some (.singleton h₀))
    (hcache : w.cacheGet k c.storage = none ∨ w.cacheGet k c.storage = some h₀)
    (hlen : w.cache.length = HOT_CACHE_SLOTS) :
    (w.getC c k).1 = .ok h₀
    ∧ lookupAt (w.getC c k).2.storages c.storage k = some (.singleton h₀)
    ∧ ((w.getC c k).2.cacheGet k c.storage = none
        ∨ (w.getC c k).2.cacheGet k c.storage = some h₀)
    ∧ (w.getC c k).2.cache.length = HOT_CACHE_SLOTS := by
  rcases hcache with hnone | hsome
  · rw [getC_local_singleton hnone hloc]
    refine ⟨rfl, hloc, ?_, ?_⟩
    · exact Or.inr (cacheGet_cacheInsert_self hlen k c.storage h₀)
    · rw [cacheInsert_length]
      exact hlen
  · have hres : w.getC c k = (.ok h₀, w) := by
      simp [World.getC, hsome]
    rw [hres]
    exact ⟨rfl, hloc, Or.inr hsome, hlen⟩

/-- C7: after `c.singleton(v)` — provided the thread cache holds no stale
entry for the type under `c` — every one of the following `get` calls
returns the very handle allocated at registration time: `n` successive
resolutions all yield the identical `Arc` identity. -/
theorem singleton_same_identity (w : World) (c : Container) (k : Key) (v : Val)
    (w1 : World)
    (hb : c.storage < w.storages.length)
    (hreg : w.singletonC c k v = some w1)
    (hcache : w.cacheGet k c.storage = none)
    (hlen : w.cache.length = HOT_CACHE_SLOTS) :
    ∀ n, getResults w1 c k n = List.replicate n (.ok ⟨w.nextId, v⟩) := by
  obtain ⟨-, hw1⟩ := singletonC_some hreg
  have hcch : w1.cache = w.cache := by
    rw [hw1]
    exact insertFactory_cache w _ _ _
  have hloc1 : lookupAt w1.storages c.storage k = some (.singleton ⟨w.nextId, v⟩) := by
    rw [hw1]
    exact insertFactory_lookup_self hb k _
  have hc1 : w1.cacheGet k c.storage = none := by
    rw [cacheGet_eq_of_cache_eq hcch]
    exact hcache
  have hlen1 : w1.cache.length = HOT_CACHE_SLOTS := by
    rw [hcch]
    exact hlen
  suffices hgen : ∀ n (u : World),
      lookupAt u.storages c.storage k = some (.singleton ⟨w.nextId, v⟩) →
      (u.cacheGet k c.storage = none ∨ u.cacheGet k c.storage = some ⟨w.nextId, v⟩) →
      u.cache.length = HOT_CACHE_SLOTS →
      getResults u c k n = List.replicate n (.ok ⟨w.nextId, v⟩) by
    intro n
    exact hgen n w1 hloc1 (Or.inl hc1) hlen1
  intro n
  induction n with
  | zero => intro u _ _ _; rfl
  | succ m ih =>
    intro u hloc hcc hlen'
    obtain ⟨hfst, hl2, hc2, hlen2⟩ := getC_singleton_invariant hloc hcc hlen'
    simp only [getResults, hfst, List.replicate]
    exact congrArg (List.cons _) (ih _ hl2 hc2 hlen2)

/-- Witness for C7 on `ScenarioSingleton`: key 2 registered with value 55
(handle id 0); three successive gets all return that handle. -/
theorem singleton_same_identity_witness :
    ScenarioSingleton.g1.singletonC ScenarioSingleton.rootC 2 55 = some ScenarioSingleton.g2
    ∧ getResults ScenarioSingleton.g2 ScenarioSingleton.rootC 2 3
        = List.replicate 3 (.ok ⟨0, 55⟩) :=
  ⟨rfl,
   (singleton_same_identity ScenarioSingleton.g1 ScenarioSingleton.rootC 2 55
      ScenarioSingleton.g2 (by decide) rfl (by decide) (by decide)) 3⟩

/-! ### Claim C8 -/

/-- C8: `scope()` returns a child whose depth is the parent's depth plus
one and whose registry starts empty; every key visible from the parent
(wherever in its ancestor chain it lives, at any depth) is visible via
the child's `contains` and resolvable via the child's `get`; and a key
invisible from the parent chain that is then registered only on the
child stays invisible to the parent's `contains`. -/
theorem scope_inherits_and_isolates (w : World) (P : Container)
    (hwp : wellParentedB w.storages = true)
    (hPb : P.storage < w.storages.length) :
    ((w.scopeC P).1).depth = P.depth + 1
    ∧ (w.scopeC P).2.lenC (w.scopeC P).1 = 0
    ∧ (∀ k, w.containsC P k = true →
        (w.scopeC P).2.containsC (w.scopeC P).1 k = true
        ∧ ∃ h₀, ((w.scopeC P).2.getC (w.scopeC P).1 k).1 = .ok h₀)
    ∧ (∀ k v w2, w.containsC P k = false →
        (w.scopeC P).2.singletonC (w.scopeC P).1 k v = some w2 →
        w2.containsC P k = false) := by
  have hwpP := wellParented_of_B hwp
  set ss' := w.storages ++ [(⟨[], some P.storage⟩ : Storage)] with hss
  have hwp' : WellParented ss' := by
    apply wellParented_append hwpP
    intro q hq
    injection hq with hq2
    rw [← hq2]
    exact hPb
  have hgetlen : ss'[w.storages.length]? = some ⟨[], some P.storage⟩ :=
    List.getElem?_concat_length _ _
  have hparC : parentOfS ss' w.storages.length = some P.storage := by
    simp [parentOfS, hgetlen]
  have hchain_pres : ∀ k, containsChainFuel ss' k (P.storage + 1) P.storage
      = containsChainFuel w.storages k (P.storage + 1) P.storage :=
    fun k => containsChainFuel_append _ hwpP k _ P.storage hPb
  refine ⟨rfl, ?_, ?_, ?_⟩
  · show World.lenC ⟨ss', w.locks ++ [false], w.cache, w.nextId⟩
        ⟨w.storages.length, some P.storage, w.locks.length, P.depth + 1⟩ = 0
    simp [World.lenC, hgetlen]
  · intro k hk
    have hcc : containsChainFuel ss' k (w.storages.length + 1) w.storages.length = true := by
      have hsc : storageContains ss' w.storages.length k = false := by
        simp [storageContains, hgetlen, lookupKey]
      simp only [containsChainFuel, hsc, Bool.false_eq_true, if_false, hparC]
      rw [containsChainFuel_congr_fuel hwp' k P.storage w.storages.length (by omega)]
      rw [hchain_pres k]
      exact hk
    constructor
    · exact hcc
    · refine @getC_ok_of_ancestor ((w.scopeC P).2) ((w.scopeC P).1) k P.storage hwp' hparC
        (Nat.succ_ne_zero _) ?_
      rw [show containsChainFuel ((w.scopeC P).2).storages k (P.storage + 1) P.storage
            = containsChainFuel ss' k (P.storage + 1) P.storage from rfl, hchain_pres k]
      exact hk
  · intro k v w2 hnc hreg
    obtain ⟨-, hw2⟩ := singletonC_some hreg
    have hs2 : w2.storages
        = ss'.set w.storages.length
            ⟨insertKey [] k (.singleton ⟨(w.scopeC P).2.nextId, v⟩), some P.storage⟩ := by
      rw [hw2]
      show ((w.scopeC P).2.insertFactory w.storages.length k
          (.singleton ⟨(w.scopeC P).2.nextId, v⟩)).storages = _
      have hrw : (w.scopeC P).2.storages = ss' := rfl
      simp only [World.insertFactory, hrw, hgetlen]
    show containsChainFuel w2.storages k (P.storage + 1) P.storage = false
    rw [hs2, containsChainFuel_set_above _ hwp' k _ P.storage (by omega), hchain_pres k]
    exact hnc

/-- Witness for C8 on `ScenarioDeep`: scoping the level-two container
gives a depth-3 child that still sees and resolves key 9 registered on
the root three levels above. -/
theorem scope_inherits_and_isolates_witness :
    wellParentedB ScenarioDeep.d4.storages = true
    ∧ ((ScenarioDeep.d4.scopeC ScenarioDeep.s2).1).depth = 3
    ∧ (ScenarioDeep.d4.scopeC ScenarioDeep.s2).2.containsC
        (ScenarioDeep.d4.scopeC ScenarioDeep.s2).1 9 = true
    ∧ ∃ h₀, ((ScenarioDeep.d4.scopeC ScenarioDeep.s2).2.getC
        (ScenarioDeep.d4.scopeC ScenarioDeep.s2).1 9).1 = .ok h₀ :=
  ⟨by decide,
   (scope_inherits_and_isolates ScenarioDeep.d4 ScenarioDeep.s2 (by decide) (by decide)).1,
   ((scope_inherits_and_isolates ScenarioDeep.d4 ScenarioDeep.s2 (by decide) (by decide)).2.2.1
      9 (by decide)).1,
   ((scope_inherits_and_isolates ScenarioDeep.d4 ScenarioDeep.s2 (by decide) (by decide)).2.2.1
      9 (by decide)).2⟩

/-! ### Claim C9 -/

theorem isMphfB_dest {mphf : Key → Option Nat} {keys : List Key}
    (hm : isMphfB mphf keys = true) :
    (∀ k ∈ keys, ∃ i, mphf k = some i ∧ i < keys.length)
    ∧ (∀ i, i < keys.length → ∃ k ∈ keys, mphf k = some i)
    ∧ (∀ k1 ∈ keys, ∀ k2 ∈ keys, mphf k1 = mphf k2 → k1 = k2) := by
  rw [isMphfB, Bool.and_eq_true, Bool.and_eq_true] at hm
  obtain ⟨⟨h1, h2⟩, h3⟩ := hm
  refine ⟨?_, ?_, ?_⟩
  · intro k hk
    have hx := List.all_eq_true.mp h1 k hk
    cases hmk : mphf k with
    | none => rw [hmk] at hx; cases hx
    | some i =>
      rw [hmk] at hx
      exact ⟨i, rfl, of_decide_eq_true hx⟩
  · intro i hi
    have hx := List.all_eq_true.mp h2 i (List.mem_range.mpr hi)
    obtain ⟨k, hk, hdec⟩ := List.any_eq_true.mp hx
    exact ⟨k, hk, of_decide_eq_true hdec⟩
  · intro k1 hk1 k2 hk2 heq
    have hx := List.all_eq_true.mp (List.all_eq_true.mp h3 k1 hk1) k2 hk2
    exact of_decide_eq_true hx heq

theorem mem_of_lookupKey {l : List (Key × Factory)} {k : Key} {f : Factory}
    (h : lookupKey l k = some f) : (k, f) ∈ l := by
  induction l with
  | nil => cases h
  | cons hd tl ih =>
    obtain ⟨k', f'⟩ := hd
    by_cases hk : k' = k
    · subst hk
      have h3 : f' = f := by simpa [lookupKey] using h
      rw [← h3]
      exact List.mem_cons_self _ _
    · simp only [lookupKey, if_neg hk] at h
      exact List.mem_cons_of_mem _ (ih h)

theorem fillSlots_length (mphf : Key → Option Nat) :
    ∀ (l : List (Key × Factory)) (acc : List (Option (Key × Factory))),
      (fillSlots mphf l acc).length = acc.length := by
  intro l
  induction l with
  | nil => intro acc; rfl
  | cons e rest ih =>
    intro acc
    cases hm : mphf e.1 with
    | none => simp [fillSlots, hm, ih]
    | some i => simp [fillSlots, hm, ih]

theorem fillSlots_not_hit (mphf : Key → Option Nat) {i : Nat} :
    ∀ (l : List (Key × Factory)) (acc : List (Option (Key × Factory))),
      (∀ e ∈ l, mphf e.1 ≠ some i) →
      (fillSlots mphf l acc)[i]? = acc[i]? := by
  intro l
  induction l with
  | nil => intro acc _; rfl
  | cons e rest ih =>
    intro acc hno
    cases hm : mphf e.1 with
    | none =>
      simp only [fillSlots, hm]
      exact ih acc (fun e' he' => hno e' (List.mem_cons_of_mem _ he'))
    | some j =>
      have hji : j ≠ i := by
        intro hh
        exact hno e (List.mem_cons_self _ _) (by rw [hm, hh])
      simp only [fillSlots, hm]
      rw [ih _ (fun e' he' => hno e' (List.mem_cons_of_mem _ he'))]
      exact List.getElem?_set_ne hji

theorem fillSlots_hit (mphf : Key → Option Nat) {i : Nat} {k : Key} {f : Factory} :
    ∀ (l : List (Key × Factory)) (acc : List (Option (Key × Factory))),
      (k, f) ∈ l →
      mphf k = some i →
      (∀ e ∈ l, mphf e.1 = some i → e.1 = k) →
      (l.map Prod.fst).Nodup →
      i < acc.length →
      (fillSlots mphf l acc)[i]? = some (some (k, f)) := by
  intro l
  induction l with
  | nil => intro acc hmem; cases hmem
  | cons e rest ih =>
    intro acc hmem hmk huniq hnd hlen
    simp only [List.map_cons, List.nodup_cons] at hnd
    rcases List.mem_cons.mp hmem with heq | hmem'
    · cases heq
      simp only [fillSlots, hmk]
      have hrest : ∀ e' ∈ rest, mphf e'.1 ≠ some i := by
        intro e' he' hcon
        have he'k : e'.1 = k := huniq e' (List.mem_cons_of_mem _ he') hcon
        exact hnd.1 (List.mem_map.mpr ⟨e', he', he'k⟩)
      rw [fillSlots_not_hit mphf rest _ hrest]
      exact List.getElem?_set_self hlen
    · have hek : e.1 ≠ k := by
        intro hh
        exact hnd.1 (by rw [hh]; exact List.mem_map_of_mem Prod.fst hmem')
      have hne2 : mphf e.1 ≠ some i := by
        intro hcon
        exact hek (huniq e (List.mem_cons_self _ _) hcon)
      cases hm : mphf e.1 with
      | none =>
        simp only [fillSlots, hm]
        exact ih _ hmem' hmk (fun e' he' => huniq e' (List.mem_cons_of_mem _ he')) hnd.2 hlen
      | some j =>
        simp only [fillSlots, hm]
        refine ih _ hmem' hmk (fun e' he' => huniq e' (List.mem_cons_of_mem _ he')) hnd.2 ?_
        rw [List.length_set]
        exact hlen

theorem filterMap_id_getElem {α : Type} :
    ∀ (xs : List (Option α)), (∀ x ∈ xs, x.isSome) →
      ∀ (i : Nat), (xs.filterMap id)[i]? = (xs[i]?).bind id := by
  intro xs
  induction xs with
  | nil => intro _ i; cases i <;> rfl
  | cons x rest ih =>
    intro hall i
    cases x with
    | none => exact absurd (hall none (List.mem_cons_self _ _)) (by simp)
    | some a =>
      have hrest := fun y hy => hall y (List.mem_cons_of_mem _ hy)
      cases i with
      | zero => simp [List.filterMap_cons]
      | succ j =>
        simp only [List.filterMap_cons, id]
        rw [List.getElem?_cons_succ, List.getElem?_cons_succ]
        exact ih hrest j

theorem containsF_eq_isSome (fz : FrozenStorage) (k : Key) :
    fz.containsF k = (fz.findEntry k).isSome := by
  unfold FrozenStorage.containsF FrozenStorage.findEntry
  cases fz.mphf k with
  | none => rfl
  | some idx =>
    show (match fz.table[idx]? with
      | none => false
      | some e => e.1 == k)
      = (match fz.table[idx]? with
        | none => none
        | some e => if e.1 = k then some e.2 else none).isSome
    cases fz.table[idx]? with
    | none => rfl
    | some e =>
      by_cases he : e.1 = k
      · simp [he]
      · simp [he]

theorem findEntry_eq_lookupKey (mphf : Key → Option Nat) (entries : List (Key × Factory))
    (hnd : (entries.map Prod.fst).Nodup)
    (hm : isMphfB mphf (entries.map Prod.fst) = true) (k : Key) :
    (FrozenStorage.fromEntries mphf entries).findEntry k = lookupKey entries k := by
  obtain ⟨htot, hsurj, hinj⟩ := isMphfB_dest hm
  have hslot : ∀ i, i < entries.length → ∃ k0 f0,
      (fillSlots mphf entries (List.replicate entries.length none))[i]? = some (some (k0, f0))
      ∧ (k0, f0) ∈ entries ∧ mphf k0 = some i := by
    intro i hi
    obtain ⟨k0, hk0mem, hk0⟩ := hsurj i (by rwa [List.length_map])
    obtain ⟨⟨k0', f0⟩, hkf, hfst⟩ := List.mem_map.mp hk0mem
    cases hfst
    refine ⟨k0', f0, ?_, hkf, hk0⟩
    apply fillSlots_hit mphf entries _ hkf hk0 ?_ hnd ?_
    · intro e he hei
      exact hinj e.1 (List.mem_map_of_mem Prod.fst he) k0' hk0mem (by rw [hei, hk0])
    · rw [List.length_replicate]
      exact hi
  have hallsome : ∀ x ∈ fillSlots mphf entries (List.replicate entries.length none),
      x.isSome := by
    intro x hx
    obtain ⟨i, hix⟩ := List.mem_iff_getElem?.mp hx
    have hilen : i < entries.length := by
      obtain ⟨hlt, -⟩ := List.getElem?_eq_some.mp hix
      rwa [fillSlots_length, List.length_replicate] at hlt
    obtain ⟨k0, f0, hs, -, -⟩ := hslot i hilen
    rw [hix] at hs
    injection hs with hs2
    rw [hs2]
    rfl
  have htbl : ∀ i, (FrozenStorage.fromEntries mphf entries).table[i]?
      = ((fillSlots mphf entries (List.replicate entries.length none))[i]?).bind id :=
    filterMap_id_getElem _ hallsome
  cases hlk : lookupKey entries k with
  | some f =>
    have hmem : (k, f) ∈ entries := mem_of_lookupKey hlk
    obtain ⟨i, hmk, hilt⟩ := htot k (List.mem_map_of_mem Prod.fst hmem)
    have hlen2 : i < entries.length := by rwa [List.length_map] at hilt
    have hfill : (fillSlots mphf entries (List.replicate entries.length none))[i]?
        = some (some (k, f)) := by
      apply fillSlots_hit mphf entries _ hmem hmk ?_ hnd ?_
      · intro e he hei
        exact hinj e.1 (List.mem_map_of_mem Prod.fst he) k (List.mem_map_of_mem Prod.fst hmem)
          (by rw [hei, hmk])
      · rw [List.length_replicate]
        exact hlen2
    have hstep : (FrozenStorage.fromEntries mphf entries).findEntry k
        = (match (FrozenStorage.fromEntries mphf entries).table[i]? with
           | none => none
           | some e => if e.1 = k then some e.2 else none) := by
      unfold FrozenStorage.findEntry
      rw [show (FrozenStorage.fromEntries mphf entries).mphf = mphf from rfl, hmk]
    rw [hstep, htbl i, hfill]
    simp
  | none =>
    have hnk : k ∉ entries.map Prod.fst := by
      intro hmem
      obtain ⟨⟨k', f'⟩, hkf, hfst⟩ := List.mem_map.mp hmem
      cases hfst
      rw [lookupKey_of_mem hnd hkf] at hlk
      cases hlk
    cases hmk : mphf k with
    | none =>
      show (FrozenStorage.fromEntries mphf entries).findEntry k = none
      unfold FrozenStorage.findEntry
      rw [show (FrozenStorage.fromEntries mphf entries).mphf = mphf from rfl, hmk]
    | some idx =>
      have hstep : (FrozenStorage.fromEntries mphf entries).findEntry k
          = (match (FrozenStorage.fromEntries mphf entries).table[idx]? with
             | none => none
             | some e => if e.1 = k then some e.2 else none) := by
        unfold FrozenStorage.findEntry
        rw [show (FrozenStorage.fromEntries mphf entries).mphf = mphf from rfl, hmk]
      rw [hstep, htbl idx]
      cases hfi : (fillSlots mphf entries (List.replicate entries.length none))[idx]? with
      | none => rfl
      | some oe =>
        have hidx : idx < entries.length := by
          obtain ⟨hlt, -⟩ := List.getElem?_eq_some.mp hfi
          rwa [fillSlots_length, List.length_replicate] at hlt
        obtain ⟨k0, f0, hs, hmem0, -⟩ := hslot idx hidx
        rw [hfi] at hs
        injection hs with hs2
        rw [hs2]
        have hk0ne : k0 ≠ k := by
          intro hh
          rw [hh] at hmem0
          exact hnk (List.mem_map_of_mem Prod.fst hmem0)
        simp [hk0ne]

/-- C9: the frozen storage built from a snapshot of entries (with a
minimal perfect hash for its key set) finds exactly the snapshot's
entries: lookup agrees with the map lookup on every frozen key,
`resolve` runs the very same factory on the same allocation supply, and
for every key outside the set — even one the hash sends to a plausible
in-range slot — `resolve` is `none` and `contains` is false, because the
stored key is compared after indexing. -/
theorem frozen_matches_snapshot (mphf : Key → Option Nat) (entries : List (Key × Factory))
    (hnd : (entries.map Prod.fst).Nodup)
    (hm : isMphfB mphf (entries.map Prod.fst) = true) :
    (∀ k, (FrozenStorage.fromEntries mphf entries).findEntry k = lookupKey entries k)
    ∧ (∀ k, (FrozenStorage.fromEntries mphf entries).containsF k
        = (lookupKey entries k).isSome)
    ∧ (∀ k fresh, (FrozenStorage.fromEntries mphf entries).resolveFz k fresh
        = (lookupKey entries k).map fun f => (f.resolve fresh).1) := by
  have hfind := findEntry_eq_lookupKey mphf entries hnd hm
  refine ⟨hfind, ?_, ?_⟩
  · intro k
    rw [containsF_eq_isSome, hfind k]
  · intro k fresh
    unfold FrozenStorage.resolveFz
    rw [hfind k]

/-- Witness for C9 on `ScenarioFrozen`: keys {3, 10}; the unknown key 4
hashes to the plausible in-range slot 0, yet `contains` rejects it after
key verification, while key 3 resolves exactly as the snapshot lookup. -/
theorem frozen_matches_snapshot_witness :
    isMphfB ScenarioFrozen.mphfW (ScenarioFrozen.entriesW.map Prod.fst) = true
    ∧ ScenarioFrozen.mphfW 4 = some 0
    ∧ (FrozenStorage.fromEntries ScenarioFrozen.mphfW ScenarioFrozen.entriesW).containsF 4
        = (lookupKey ScenarioFrozen.entriesW 4).isSome
    ∧ (FrozenStorage.fromEntries ScenarioFrozen.mphfW ScenarioFrozen.entriesW).resolveFz 3 7
        = (lookupKey ScenarioFrozen.entriesW 3).map fun f => (f.resolve 7).1 :=
  ⟨by decide, by decide,
   (frozen_matches_snapshot ScenarioFrozen.mphfW ScenarioFrozen.entriesW
      (by decide) (by decide)).2.1 4,
   (frozen_matches_snapshot ScenarioFrozen.mphfW ScenarioFrozen.entriesW
      (by decide) (by decide)).2.2 3 7⟩

end DI
